import Mathlib

/-!
# arduino-event: the event manager of `Event.h` / `Event.cpp`

A shallow embedding of the `EventManager` class (subscribe, trigger,
triggerInterval, tick) and of the structures it works on, followed by the
properties established about it.

Conventions of the embedding

* A `const char *` is an `Option String`: `none` is the null pointer.
* An `EventTask *` is an `Option EventTask`; an `EventTask` is the identity of a
  handler object.  The handler's own code is outside the repository: invoking
  `execute` is recorded in a trace and has no effect on the manager.
* `unsigned long` is 32 bits wide (AVR); sums and differences are reduced
  modulo `2 ^ 32` where the source computes them.
* The member arrays are lists; a store or a read outside the declared array is
  undefined behaviour in the source and is a `Fault` here, as is a call through a
  null `EventTask *`.
-/

namespace ArduinoEvent

/-- A `const char *`: `none` is `NULL`, `some s` points at the C string `s`. -/
abbrev CStr := Option String

/-- The conversion `(String) p` of the Arduino core (`String(const char *)`,
which is not part of this repository): the characters of the C string, and the
empty `String` for a null pointer (the constructor copies only `if (cstr)`). -/
def toStr : CStr → String
  | none => ""
  | some s => s

/-- The test `(String) a == (String) b` of `EventManager::trigger`. -/
def sameLabel (a b : CStr) : Bool :=
  toStr a == toStr b

/-- Unsigned long modulus (32 bits). -/
def ulongMod : Nat := 2 ^ 32

/-- The sum `a + b` of two `unsigned long`. -/
def addUL (a b : Nat) : Nat :=
  (a + b) % ulongMod

/-- The difference `a - b` of two `unsigned long`. -/
def subUL (a b : Nat) : Nat :=
  (a + (ulongMod - b % ulongMod)) % ulongMod

/-- The structure `Event`.  The constructors `Event()` and `Event(cLabel)` do not set
`extra`; an unset pointer is recorded as `none`. -/
structure Event where
  extra : CStr
  label : CStr
deriving DecidableEq, Repr

/-- The constructor `Event() : label(NULL)`. -/
def Event.empty : Event :=
  { extra := none, label := none }

/-- The constructor `Event(const char *cLabel) : label(cLabel)`. -/
def Event.ofLabel (cLabel : CStr) : Event :=
  { extra := none, label := cLabel }

/-- The constructor `Event(const char *cLabel, const char *cExtra)`. -/
def Event.ofLabelExtra (cLabel cExtra : CStr) : Event :=
  { extra := cExtra, label := cLabel }

/-- The structure `EventTask`: the identity of a handler object. -/
abbrev EventTask := Nat

/-- The structure `Subscriber`. -/
structure Subscriber where
  label : CStr
  task : Option EventTask
deriving DecidableEq, Repr

/-- The constructor `Subscriber() : label(NULL), task(NULL)`. -/
def Subscriber.empty : Subscriber :=
  { label := none, task := none }

/-- The constructor `Subscriber(const char *cLabel, EventTask *cTask)`. -/
def Subscriber.new (cLabel : CStr) (cTask : Option EventTask) : Subscriber :=
  { label := cLabel, task := cTask }

/-- The structure `TimedTask`. -/
structure TimedTask where
  ms : Nat
  current : Nat
  evt : Event
  alive : Bool
deriving DecidableEq, Repr

/-- The constructor `TimedTask() : ms(0), evt(NULL), alive(false), current(0)`. -/
def TimedTask.empty : TimedTask :=
  { ms := 0, current := 0, evt := Event.ofLabel none, alive := false }

/-- The constructor `TimedTask(unsigned long cMs, Event cEvt) : ms(cMs),
evt(cEvt), alive(true), current(60)`. -/
def TimedTask.new (cMs : Nat) (cEvt : Event) : TimedTask :=
  { ms := cMs, current := 60, evt := cEvt, alive := true }

/-- The method `TimedTask::eval`: the returned flag and the task after the call. -/
def TimedTask.eval (t : TimedTask) : Bool × TimedTask :=
  if t.current ≥ t.ms then (true, { t with current := 0 }) else (false, t)

/-- The statement `task->current = task->current + difference` of `tick`. -/
def TimedTask.advance (t : TimedTask) (difference : Nat) : TimedTask :=
  { t with current := addUL t.current difference }

/-- The class `EventManager` (its private fields). -/
structure EventManager where
  _interval : List TimedTask
  _intervalSize : Nat
  _intervalPos : Nat
  _sub : List Subscriber
  _subSize : Nat
  _subPos : Nat
  _previousMs : Nat
deriving DecidableEq, Repr

/-- Undefined behaviour of the source, made explicit. -/
inductive Fault where
  /-- A store `_sub[idx] = sub` outside the 10 declared slots. -/
  | subStore (idx : Nat)
  /-- A store `_interval[idx] = task` outside the 5 declared slots. -/
  | intervalStore (idx : Nat)
  /-- A read `&_sub[idx]` outside the declared slots. -/
  | subRead (idx : Nat)
  /-- A read `&_interval[idx]` outside the declared slots. -/
  | intervalRead (idx : Nat)
  /-- The call `sub->task->execute(evt)` at slot `idx` with `task == NULL`. -/
  | nullTask (idx : Nat)
deriving DecidableEq, Repr

/-- One handler invocation `task->execute(evt)`. -/
abbrev Call := EventTask × Event

/-- The constructor `EventManager::EventManager()`.  The member arrays are default-constructed
(`TimedTask _interval[5]`, `Subscriber _sub[10]`), `_intervalSize`,
`_intervalPos` and `_subSize` are assigned.  `_subPos` and `_previousMs` are not
assigned: they keep what the storage held, the two parameters. -/
def EventManager.new (subPos previousMs : Nat) : EventManager :=
  { _interval := List.replicate 5 TimedTask.empty
    _intervalSize := 5
    _intervalPos := 0
    _sub := List.replicate 10 Subscriber.empty
    _subSize := 10
    _subPos := subPos
    _previousMs := previousMs }

/-- A fresh manager with zero subscribers: `_subPos` is 0, as it is for a manager
with static storage, which is zero-filled before the constructor runs. -/
def EventManager.fresh (previousMs : Nat) : EventManager :=
  EventManager.new 0 previousMs

/-- The method `EventManager::subscribe`.  The store is made only at an index
below 10, so the increment of `_subPos` never wraps. -/
def subscribe (m : EventManager) (sub : Subscriber) : Except Fault EventManager :=
  if m._subSize ≥ m._subPos then
    if m._subPos < m._sub.length then
      .ok { m with _sub := m._sub.set m._subPos sub, _subPos := m._subPos + 1 }
    else
      .error (.subStore m._subPos)
  else
    .ok m

/-- The loop of `EventManager::trigger` from index `i`, with `n` iterations
left. -/
def triggerLoop (evt : Event) (m : EventManager) (i : Nat) :
    Nat → Except Fault (EventManager × List Call)
  | 0 => .ok (m, [])
  | n + 1 =>
    match m._sub[i]? with
    | none => .error (.subRead i)
    | some sub =>
      if sameLabel sub.label evt.label then
        match sub.task with
        | none => .error (.nullTask i)
        | some h =>
          match triggerLoop evt m (i + 1) n with
          | .error f => .error f
          | .ok (m1, calls) => .ok (m1, (h, evt) :: calls)
      else
        triggerLoop evt m (i + 1) n

/-- The method `EventManager::trigger`: the manager after the call and the handler
invocations made, in order. -/
def trigger (m : EventManager) (evt : Event) : Except Fault (EventManager × List Call) :=
  triggerLoop evt m 0 m._subSize

/-- The method `EventManager::triggerInterval`.  The store is made only at an
index below 5, so the increment of `_intervalPos` never wraps. -/
def triggerInterval (m : EventManager) (task : TimedTask) : Except Fault EventManager :=
  if m._intervalSize ≥ m._intervalPos then
    if m._intervalPos < m._interval.length then
      .ok { m with _interval := m._interval.set m._intervalPos task,
                   _intervalPos := m._intervalPos + 1 }
    else
      .error (.intervalStore m._intervalPos)
  else
    .ok m

/-- What a run of `tick` produced: the manager afterwards, the calls
`trigger(task->evt)` it made (slot index and event passed), and the handler
invocations those calls made, in order. -/
structure TickResult where
  mgr : EventManager
  fired : List (Nat × Event)
  calls : List Call
deriving DecidableEq, Repr

/-- The loop of `EventManager::tick` from index `i`, with `n` iterations left. -/
def tickLoop (difference : Nat) (m : EventManager) (i : Nat) :
    Nat → Except Fault TickResult
  | 0 => .ok { mgr := m, fired := [], calls := [] }
  | n + 1 =>
    match m._interval[i]? with
    | none => .error (.intervalRead i)
    | some task =>
      if task.alive then
        let task1 := task.advance difference
        let m1 := { m with _interval := m._interval.set i task1.eval.2 }
        if task1.eval.1 then
          match trigger m1 task1.eval.2.evt with
          | .error f => .error f
          | .ok (m2, calls) =>
            match tickLoop difference m2 (i + 1) n with
            | .error f => .error f
            | .ok r =>
              .ok { mgr := r.mgr, fired := (i, task1.eval.2.evt) :: r.fired,
                    calls := calls ++ r.calls }
        else
          tickLoop difference m1 (i + 1) n
      else
        tickLoop difference m (i + 1) n

/-- The method `EventManager::tick`, with `currentMs` the value `millis()`
returns (an `unsigned long`). -/
def tick (m : EventManager) (currentMs : Nat) : Except Fault TickResult :=
  match tickLoop (subUL currentMs m._previousMs) m 0 m._intervalSize with
  | .error f => .error f
  | .ok r => .ok { r with mgr := { r.mgr with _previousMs := currentMs } }

/-- A sequence of `subscribe` calls, in order. -/
def subscribeAll (m : EventManager) : List Subscriber → Except Fault EventManager
  | [] => .ok m
  | s :: rest =>
    match subscribe m s with
    | .error f => .error f
    | .ok m1 => subscribeAll m1 rest

/-- A sequence of `triggerInterval` calls, in order. -/
def triggerIntervalAll (m : EventManager) : List TimedTask → Except Fault EventManager
  | [] => .ok m
  | t :: rest =>
    match triggerInterval m t with
    | .error f => .error f
    | .ok m1 => triggerIntervalAll m1 rest

/-- A sequence of `tick` calls at the clock readings given; the results of the
ticks in order (the last manager is that of the last result). -/
def ticks (m : EventManager) : List Nat → Except Fault (EventManager × List TickResult)
  | [] => .ok (m, [])
  | now :: rest =>
    match tick m now with
    | .error f => .error f
    | .ok r =>
      match ticks r.mgr rest with
      | .error f => .error f
      | .ok (m1, rs) => .ok (m1, r :: rs)

/-- The elapsed deltas of a sequence of ticks, the first relative to `prev`. -/
def deltas (prev : Nat) : List Nat → List Nat
  | [] => []
  | now :: rest => subUL now prev :: deltas now rest

/-! ## Definitions used to state the properties -/

/-- The handler invocations a scan of the slots `subs` makes for `evt` when no
matching slot has a null handler: one per matching slot, in slot order. -/
def matchCalls (evt : Event) (subs : List Subscriber) : List Call :=
  subs.filterMap fun s =>
    if sameLabel s.label evt.label then s.task.map (fun h => (h, evt)) else none

/-- No slot of `subs` that matches `evt` has a null handler. -/
def TriggerSafe (subs : List Subscriber) (evt : Event) : Prop :=
  ∀ s ∈ subs, sameLabel s.label evt.label = true → s.task ≠ none

instance (subs : List Subscriber) (evt : Event) : Decidable (TriggerSafe subs evt) := by
  unfold TriggerSafe; infer_instance

/-- What the constructor establishes and every operation keeps: the declared
array sizes and the two size fields. -/
structure EventManager.WF (m : EventManager) : Prop where
  interval_length : m._interval.length = 5
  intervalSize_eq : m._intervalSize = 5
  sub_length : m._sub.length = 10
  subSize_eq : m._subSize = 10

/-- The body of the loop of `tick` on one slot, for the elapsed time `d`: the
task afterwards. -/
def stepTask (d : Nat) (t : TimedTask) : TimedTask :=
  if t.alive then (t.advance d).eval.2 else t

/-- The body of the loop of `tick` on one slot, for the elapsed time `d`:
whether `trigger(task->evt)` is called. -/
def firesTask (d : Nat) (t : TimedTask) : Bool :=
  t.alive && (t.advance d).eval.1

/-- The calls `trigger(task->evt)` a scan of the slots `ts` makes, the first of
them being slot `i`. -/
def firedFrom (d : Nat) : Nat → List TimedTask → List (Nat × Event)
  | _, [] => []
  | i, t :: rest =>
    if firesTask d t then (i, t.evt) :: firedFrom d (i + 1) rest
    else firedFrom d (i + 1) rest

/-- No event of an alive timed task matches a subscriber slot with a null
handler: no `trigger` made by `tick` calls through a null pointer. -/
def EventManager.Safe (m : EventManager) : Prop :=
  ∀ t ∈ m._interval, t.alive = true → TriggerSafe m._sub t.evt

instance (m : EventManager) : Decidable m.Safe := by
  unfold EventManager.Safe; infer_instance

/-- What `tick` returns at the clock reading `now` when no `trigger` it makes
calls through a null handler: every slot stepped by the elapsed time, the
triggers of the firing slots in slot order, and their handler invocations. -/
def tickSpec (m : EventManager) (now : Nat) : TickResult :=
  { mgr := { m with _interval := m._interval.map (stepTask (subUL now m._previousMs)),
                    _previousMs := now }
    fired := firedFrom (subUL now m._previousMs) 0 m._interval
    calls := (firedFrom (subUL now m._previousMs) 0 m._interval).flatMap
      fun f => matchCalls f.2 m._sub }

/-- One timed task over a sequence of ticks with the elapsed times `ds`: for
each tick, whether the task fired and the task after the tick. -/
def runTask (t : TimedTask) : List Nat → List (Bool × TimedTask)
  | [] => []
  | d :: ds => (firesTask d t, stepTask d t) :: runTask (stepTask d t) ds

/-- How often slot `i` was passed to `trigger` over the ticks `rs`. -/
def fireCount (i : Nat) (rs : List TickResult) : Nat :=
  (rs.map fun r => (r.fired.filter fun f => f.1 == i).length).sum

/-- How often one timed task fires over a sequence of ticks with the elapsed
times `ds`. -/
def taskFires (t : TimedTask) : List Nat → Nat
  | [] => 0
  | d :: ds => (if firesTask d t then 1 else 0) + taskFires (stepTask d t) ds

/-- An example state: "a" of period 100 in slot 0 and "b" of period 80 in slot 1
(both just registered, accumulator 60), handler 2 subscribed to "b" and then
handler 1 to "a", previous tick at 0. -/
def twoTaskManager : EventManager :=
  { EventManager.fresh 0 with
      _interval := [TimedTask.new 100 (Event.ofLabel (some "a")),
                    TimedTask.new 80 (Event.ofLabel (some "b")),
                    TimedTask.empty, TimedTask.empty, TimedTask.empty]
      _intervalPos := 2
      _sub := Subscriber.new (some "b") (some 2) :: Subscriber.new (some "a") (some 1)
                :: List.replicate 8 Subscriber.empty
      _subPos := 2 }

/-! ## Reading the loops -/

theorem getElem?_mid {α : Type} (pre : List α) (x : α) (post : List α) :
    (pre ++ x :: post)[pre.length]? = some x := by
  rw [List.getElem?_append_right (le_refl _)]
  simp

theorem triggerLoop_eq (evt : Event) (m : EventManager) :
    ∀ (cur pre post : List Subscriber), m._sub = pre ++ cur ++ post →
      TriggerSafe cur evt →
      triggerLoop evt m pre.length cur.length = .ok (m, matchCalls evt cur) := by
  intro cur
  induction cur with
  | nil => intro pre post _ _; rfl
  | cons s cur ih =>
    intro pre post hsub hsafe
    have hget : m._sub[pre.length]? = some s := by
      rw [hsub, List.append_assoc, List.cons_append]; exact getElem?_mid _ _ _
    have hrest : triggerLoop evt m (pre ++ [s]).length cur.length
        = .ok (m, matchCalls evt cur) := by
      apply ih (pre ++ [s]) post
      · rw [hsub]; simp
      · intro x hx; exact hsafe x (List.mem_cons_of_mem _ hx)
    rw [List.length_append, List.length_singleton] at hrest
    simp only [List.length_cons, triggerLoop, hget]
    by_cases hlab : sameLabel s.label evt.label = true
    · have hne := hsafe s (List.mem_cons_self _ _) hlab
      obtain ⟨h, hh⟩ := Option.ne_none_iff_exists.mp hne
      simp [hlab, ← hh, hrest, matchCalls]
    · simp [hlab, hrest, matchCalls]

theorem trigger_eq (m : EventManager) (evt : Event) (hsize : m._subSize = m._sub.length)
    (hsafe : TriggerSafe m._sub evt) :
    trigger m evt = .ok (m, matchCalls evt m._sub) := by
  have h := triggerLoop_eq evt m m._sub [] [] (by simp) hsafe
  simpa [trigger, hsize] using h

theorem set_mid {α : Type} (pre : List α) (x y : α) (post : List α) :
    (pre ++ x :: post).set pre.length y = pre ++ y :: post := by
  induction pre with
  | nil => rfl
  | cons a pre ih => simp [ih]

theorem subscribeAll_eq (subs : List Subscriber) :
    ∀ (m : EventManager) (done : List Subscriber) (k : Nat),
      m._sub = done ++ List.replicate k Subscriber.empty →
      m._subPos = done.length → m._subSize = done.length + k → subs.length ≤ k →
      subscribeAll m subs = .ok
        { m with _sub := done ++ subs ++ List.replicate (k - subs.length) Subscriber.empty,
                 _subPos := done.length + subs.length } := by
  induction subs with
  | nil =>
    intro m done k hsub hpos _ _
    simp [subscribeAll, ← hsub, ← hpos]
  | cons s rest ih =>
    intro m done k hsub hpos hsize hlen
    obtain ⟨k, rfl⟩ : ∃ j, k = j + 1 := ⟨k - 1, by simp at hlen; omega⟩
    have hstep : subscribe m s = .ok
        { m with _sub := done ++ s :: List.replicate k Subscriber.empty,
                 _subPos := done.length + 1 } := by
      have h1 : m._subSize ≥ m._subPos := by omega
      have h2 : m._subPos < m._sub.length := by
        rw [hsub, hpos]; simp
      simp only [subscribe, h1, h2, if_true]
      rw [hsub, hpos, List.replicate_succ, set_mid]
    simp only [subscribeAll, hstep]
    have := ih { m with _sub := done ++ s :: List.replicate k Subscriber.empty,
                        _subPos := done.length + 1 } (done ++ [s]) k
      (by simp) (by simp) (by simp; omega) (by simp at hlen; omega)
    rw [this]
    simp [Nat.add_assoc, Nat.add_comm 1]

theorem subscribeAll_fresh (prev : Nat) (subs : List Subscriber) (hlen : subs.length ≤ 10) :
    subscribeAll (EventManager.fresh prev) subs = .ok
      { EventManager.fresh prev with
          _sub := subs ++ List.replicate (10 - subs.length) Subscriber.empty,
          _subPos := subs.length } := by
  have := subscribeAll_eq subs (EventManager.fresh prev) [] 10 rfl rfl rfl hlen
  simpa using this

theorem matchCalls_append (evt : Event) (a b : List Subscriber) :
    matchCalls evt (a ++ b) = matchCalls evt a ++ matchCalls evt b := by
  simp [matchCalls, List.filterMap_append]

theorem sameLabel_empty_iff (l : CStr) :
    sameLabel Subscriber.empty.label l = true ↔ toStr l = "" := by
  show (("" : String) == toStr l) = true ↔ toStr l = ""
  rw [beq_iff_eq]
  exact eq_comm

theorem matchCalls_replicate_empty (evt : Event) (k : Nat) (h : toStr evt.label ≠ "") :
    matchCalls evt (List.replicate k Subscriber.empty) = [] := by
  have hne : sameLabel Subscriber.empty.label evt.label = false := by
    rw [Bool.eq_false_iff]; intro hc; exact h ((sameLabel_empty_iff _).mp hc)
  induction k with
  | zero => rfl
  | succ k ih =>
    rw [List.replicate_succ]
    simp only [matchCalls, List.filterMap_cons, hne] at ih ⊢
    simpa using ih

theorem matchCalls_cons (evt : Event) (s : Subscriber) (subs : List Subscriber) :
    matchCalls evt (s :: subs)
      = if sameLabel s.label evt.label = true then
          match s.task with
          | some h => (h, evt) :: matchCalls evt subs
          | none => matchCalls evt subs
        else matchCalls evt subs := by
  unfold matchCalls
  by_cases h : sameLabel s.label evt.label = true
  · cases ht : s.task <;> simp [List.filterMap_cons, h, ht]
  · simp [List.filterMap_cons, h]

theorem matchCalls_registered (evt : Event) (regs : List (CStr × EventTask)) :
    matchCalls evt (regs.map fun r => Subscriber.new r.1 (some r.2))
      = (regs.filter fun r => toStr r.1 == toStr evt.label).map fun r => (r.2, evt) := by
  induction regs with
  | nil => rfl
  | cons r regs ih =>
    rw [List.map_cons, matchCalls_cons, ih]
    by_cases h : (toStr r.1 == toStr evt.label) = true
    · have h2 : sameLabel (Subscriber.new r.1 (some r.2)).label evt.label = true := h
      rw [if_pos h2, List.filter_cons, if_pos h]
      rfl
    · have h2 : ¬ sameLabel (Subscriber.new r.1 (some r.2)).label evt.label = true := h
      rw [if_neg h2, List.filter_cons, if_neg h]

theorem matchCalls_of_no_match (evt : Event) (subs : List Subscriber)
    (h : ∀ s ∈ subs, toStr s.label ≠ toStr evt.label) : matchCalls evt subs = [] := by
  induction subs with
  | nil => rfl
  | cons s subs ih =>
    have hs : sameLabel s.label evt.label = false := by
      rw [Bool.eq_false_iff]; intro hc
      exact h s (List.mem_cons_self _ _) (by simpa [sameLabel] using hc)
    have ih := ih fun x hx => h x (List.mem_cons_of_mem _ hx)
    simp only [matchCalls, List.filterMap_cons, hs] at ih ⊢
    simpa using ih

theorem triggerSafe_append {a b : List Subscriber} {evt : Event}
    (ha : TriggerSafe a evt) (hb : TriggerSafe b evt) : TriggerSafe (a ++ b) evt := by
  intro s hs
  rcases List.mem_append.mp hs with h | h
  · exact ha s h
  · exact hb s h

theorem triggerSafe_replicate_empty (evt : Event) (k : Nat)
    (h : toStr evt.label ≠ "" ∨ k = 0) : TriggerSafe (List.replicate k Subscriber.empty) evt := by
  intro s hs hlab
  obtain ⟨hk, rfl⟩ := List.mem_replicate.mp hs
  rcases h with h | h
  · exact absurd ((sameLabel_empty_iff _).mp hlab) h
  · exact absurd h hk

theorem triggerSafe_registered (evt : Event) (regs : List (CStr × EventTask)) :
    TriggerSafe (regs.map fun r => Subscriber.new r.1 (some r.2)) evt := by
  intro s hs _
  obtain ⟨r, _, rfl⟩ := List.mem_map.mp hs
  simp [Subscriber.new]

theorem triggerSafe_of_no_match (evt : Event) (subs : List Subscriber)
    (h : ∀ s ∈ subs, toStr s.label ≠ toStr evt.label) : TriggerSafe subs evt := by
  intro s hs hlab
  exact absurd (by simpa [sameLabel] using hlab) (h s hs)

theorem matchCalls_replicate_empty' (evt : Event) (k : Nat)
    (h : toStr evt.label ≠ "" ∨ k = 0) :
    matchCalls evt (List.replicate k Subscriber.empty) = [] := by
  rcases h with h | h
  · exact matchCalls_replicate_empty evt k h
  · subst h; rfl

/-- After at most 10 registrations on a fresh manager, `trigger` returns the
manager unchanged and the invocations of the registered slots, provided the
unused slots do not match (non-empty label, or no unused slot). -/
theorem trigger_after_subscribeAll (prev : Nat) (subs : List Subscriber) (e : Event)
    (hn : subs.length ≤ 10) (he : toStr e.label ≠ "" ∨ subs.length = 10)
    (hsafe : TriggerSafe subs e) :
    ∃ m, subscribeAll (EventManager.fresh prev) subs = .ok m ∧
      trigger m e = .ok (m, matchCalls e subs) := by
  refine ⟨_, subscribeAll_fresh prev subs hn, ?_⟩
  have hk : toStr e.label ≠ "" ∨ 10 - subs.length = 0 := by
    rcases he with h | h
    · exact Or.inl h
    · exact Or.inr (by omega)
  rw [trigger_eq]
  · simp only [matchCalls_append, matchCalls_replicate_empty' e _ hk, List.append_nil]
  · simp [EventManager.fresh, EventManager.new]; omega
  · exact triggerSafe_append hsafe (triggerSafe_replicate_empty e _ hk)

theorem triggerLoop_null (evt : Event) (m : EventManager) (s : Subscriber)
    (hlab : sameLabel s.label evt.label = true) (htask : s.task = none) :
    ∀ (cur pre post : List Subscriber) (extra : Nat), m._sub = pre ++ cur ++ s :: post →
      TriggerSafe cur evt →
      triggerLoop evt m pre.length (cur.length + 1 + extra)
        = .error (.nullTask (pre.length + cur.length)) := by
  intro cur
  induction cur with
  | nil =>
    intro pre post extra hsub _
    have hget : m._sub[pre.length]? = some s := by
      rw [hsub, List.append_nil]; exact getElem?_mid _ _ _
    have hn : ([] : List Subscriber).length + 1 + extra = extra + 1 := by simp; omega
    rw [hn]
    simp [triggerLoop, hget, hlab, htask]
  | cons c cur ih =>
    intro pre post extra hsub hsafe
    have hget : m._sub[pre.length]? = some c := by
      rw [hsub, List.append_assoc, List.cons_append]; exact getElem?_mid _ _ _
    have hrest : triggerLoop evt m (pre ++ [c]).length (cur.length + 1 + extra)
        = .error (.nullTask ((pre ++ [c]).length + cur.length)) := by
      apply ih (pre ++ [c]) post extra
      · rw [hsub]; simp
      · intro x hx; exact hsafe x (List.mem_cons_of_mem _ hx)
    rw [List.length_append, List.length_singleton] at hrest
    have hn : (c :: cur).length + 1 + extra = (cur.length + 1 + extra) + 1 := by
      simp only [List.length_cons]; omega
    have hidx : pre.length + (c :: cur).length = pre.length + 1 + cur.length := by
      simp only [List.length_cons]; omega
    rw [hn, hidx]
    simp only [triggerLoop, hget]
    by_cases hc : sameLabel c.label evt.label = true
    · have hne := hsafe c (List.mem_cons_self _ _) hc
      obtain ⟨h, hh⟩ := Option.ne_none_iff_exists.mp hne
      simp [hc, ← hh, hrest]
    · simp [hc, hrest]

theorem triggerIntervalAll_eq (tasks : List TimedTask) :
    ∀ (m : EventManager) (done rest : List TimedTask),
      m._interval = done ++ rest →
      m._intervalPos = done.length → m._intervalSize = done.length + rest.length →
      tasks.length ≤ rest.length →
      triggerIntervalAll m tasks = .ok
        { m with _interval := done ++ tasks ++ rest.drop tasks.length,
                 _intervalPos := done.length + tasks.length } := by
  induction tasks with
  | nil =>
    intro m done rest hint hpos _ _
    simp [triggerIntervalAll, ← hint, ← hpos]
  | cons t tasks ih =>
    intro m done rest hint hpos hsize hlen
    obtain ⟨x, rest, rfl⟩ : ∃ x r, rest = x :: r := by
      cases rest with
      | nil => simp at hlen
      | cons x r => exact ⟨x, r, rfl⟩
    have hstep : triggerInterval m t = .ok
        { m with _interval := done ++ t :: rest, _intervalPos := done.length + 1 } := by
      have h1 : m._intervalSize ≥ m._intervalPos := by omega
      have h2 : m._intervalPos < m._interval.length := by
        rw [hint, hpos]; simp
      simp only [triggerInterval, h1, h2, if_true]
      rw [hint, hpos, set_mid]
    simp only [triggerIntervalAll, hstep]
    have := ih { m with _interval := done ++ t :: rest, _intervalPos := done.length + 1 }
      (done ++ [t]) rest (by simp) (by simp) (by simp at hsize ⊢; omega)
      (by simp at hlen; omega)
    rw [this]
    simp [Nat.add_assoc, Nat.add_comm 1]

theorem triggerIntervalAll_fresh (prev : Nat) (tasks : List TimedTask)
    (hlen : tasks.length ≤ 5) :
    triggerIntervalAll (EventManager.fresh prev) tasks = .ok
      { EventManager.fresh prev with
          _interval := tasks ++ List.replicate (5 - tasks.length) TimedTask.empty,
          _intervalPos := tasks.length } := by
  have := triggerIntervalAll_eq tasks (EventManager.fresh prev) []
    (List.replicate 5 TimedTask.empty) rfl rfl rfl (by simpa using hlen)
  rw [this, List.drop_replicate]
  simp

theorem triggerLoop_mgr (evt : Event) (m : EventManager) :
    ∀ (n i : Nat) (r : EventManager × List Call), triggerLoop evt m i n = .ok r → r.1 = m := by
  intro n
  induction n with
  | zero =>
    intro i r h
    simp only [triggerLoop, Except.ok.injEq] at h
    rw [← h]
  | succ n ih =>
    intro i r h
    simp only [triggerLoop] at h
    cases hget : m._sub[i]? with
    | none => simp [hget] at h
    | some sub =>
      simp only [hget] at h
      by_cases hlab : sameLabel sub.label evt.label = true
      · simp only [hlab, if_true] at h
        cases htask : sub.task with
        | none => simp [htask] at h
        | some hd =>
          simp only [htask] at h
          cases hrec : triggerLoop evt m (i + 1) n with
          | error f => simp [hrec] at h
          | ok r1 =>
            obtain ⟨m1, calls⟩ := r1
            simp only [hrec, Except.ok.injEq] at h
            rw [← h]
            exact ih (i + 1) (m1, calls) hrec
      · simp only [hlab] at h
        exact ih (i + 1) r h

/-! ## Reading `tick` -/

theorem eval_evt (t : TimedTask) : t.eval.2.evt = t.evt := by
  unfold TimedTask.eval; split <;> rfl

theorem eval_alive (t : TimedTask) : t.eval.2.alive = t.alive := by
  unfold TimedTask.eval; split <;> rfl

theorem eval_ms (t : TimedTask) : t.eval.2.ms = t.ms := by
  unfold TimedTask.eval; split <;> rfl

theorem stepTask_evt (d : Nat) (t : TimedTask) : (stepTask d t).evt = t.evt := by
  unfold stepTask; split
  · rw [eval_evt]; rfl
  · rfl

theorem stepTask_alive (d : Nat) (t : TimedTask) : (stepTask d t).alive = t.alive := by
  unfold stepTask; split
  · rw [eval_alive]; rfl
  · rfl

theorem stepTask_ms (d : Nat) (t : TimedTask) : (stepTask d t).ms = t.ms := by
  unfold stepTask; split
  · rw [eval_ms]; rfl
  · rfl

theorem tickLoop_eq (d : Nat) :
    ∀ (cur pre : List TimedTask) (m : EventManager), m._interval = pre ++ cur →
      m._subSize = m._sub.length →
      (∀ t ∈ cur, t.alive = true → TriggerSafe m._sub t.evt) →
      tickLoop d m pre.length cur.length = .ok
        { mgr := { m with _interval := pre ++ cur.map (stepTask d) }
          fired := firedFrom d pre.length cur
          calls := (firedFrom d pre.length cur).flatMap fun f => matchCalls f.2 m._sub } := by
  intro cur
  induction cur with
  | nil =>
    intro pre m hint _ _
    simp [tickLoop, firedFrom, ← hint]
  | cons t cur ih =>
    intro pre m hint hsize hsafe
    have hget : m._interval[pre.length]? = some t := by
      rw [hint]; exact getElem?_mid _ _ _
    have hsafe' : ∀ x ∈ cur, x.alive = true → TriggerSafe m._sub x.evt :=
      fun x hx => hsafe x (List.mem_cons_of_mem _ hx)
    have hnext := ih (pre ++ [stepTask d t])
      { m with _interval := pre ++ stepTask d t :: cur } (by simp) hsize hsafe'
    rw [List.length_append, List.length_singleton] at hnext
    simp only [List.length_cons, tickLoop, hget]
    by_cases halive : t.alive = true
    · have hstep : stepTask d t = (t.advance d).eval.2 := by
        simp [stepTask, halive]
      have hset : m._interval.set pre.length (t.advance d).eval.2
          = pre ++ stepTask d t :: cur := by
        rw [hint, set_mid, hstep]
      simp only [halive, if_true, hset]
      by_cases hfire : (t.advance d).eval.1 = true
      · have hf : firesTask d t = true := by simp [firesTask, halive, hfire]
        have hevt : (t.advance d).eval.2.evt = t.evt := by
          rw [eval_evt]; rfl
        have htrig := trigger_eq { m with _interval := pre ++ stepTask d t :: cur } t.evt
          hsize (hsafe t (List.mem_cons_self _ _) halive)
        simp only [hfire, if_true, hevt, htrig, hnext]
        simp [firedFrom, hf]
      · have hf : firesTask d t = false := by simp [firesTask, halive, hfire]
        simp only [hfire, hnext]
        simp [firedFrom, hf]
    · have hstep : stepTask d t = t := by simp [stepTask, halive]
      have hf : firesTask d t = false := by simp [firesTask, halive]
      rw [hstep, ← hint] at hnext
      simp only [halive, hnext]
      simp [firedFrom, hf, hstep, hint]

theorem tick_eq (m : EventManager) (now : Nat) (hwf : m.WF) (hsafe : m.Safe) :
    tick m now = .ok (tickSpec m now) := by
  have h := tickLoop_eq (subUL now m._previousMs) m._interval [] m (by simp)
    (by rw [hwf.subSize_eq, hwf.sub_length]) hsafe
  have hlen : m._intervalSize = m._interval.length := by
    rw [hwf.intervalSize_eq, hwf.interval_length]
  simp only [List.length_nil, List.nil_append] at h
  simp only [tick, hlen, h, tickSpec]

theorem tickSpec_wf (m : EventManager) (now : Nat) (hwf : m.WF) : (tickSpec m now).mgr.WF :=
  { interval_length := by simp [tickSpec, hwf.interval_length]
    intervalSize_eq := hwf.intervalSize_eq
    sub_length := hwf.sub_length
    subSize_eq := hwf.subSize_eq }

theorem tickSpec_safe (m : EventManager) (now : Nat) (hsafe : m.Safe) :
    (tickSpec m now).mgr.Safe := by
  intro t ht halive
  obtain ⟨t0, ht0, rfl⟩ := List.mem_map.mp ht
  rw [stepTask_alive] at halive
  rw [stepTask_evt]
  exact hsafe t0 ht0 halive

theorem tickSpec_slot (m : EventManager) (now i : Nat) :
    (tickSpec m now).mgr._interval[i]?
      = (m._interval[i]?).map (stepTask (subUL now m._previousMs)) := by
  simp [tickSpec]

theorem firedFrom_filter_lt (d j : Nat) :
    ∀ (ts : List TimedTask) (i : Nat), j < i →
      (firedFrom d i ts).filter (fun f => f.1 == j) = [] := by
  intro ts
  induction ts with
  | nil => intro i _; rfl
  | cons t ts ih =>
    intro i hji
    have hne : (i == j) = false := by simp; omega
    have := ih (i + 1) (by omega)
    unfold firedFrom
    split
    · rw [List.filter_cons]; simp only [hne]; simpa using this
    · exact this

theorem firedFrom_filter (d j : Nat) (t : TimedTask) :
    ∀ (ts : List TimedTask) (i : Nat), i ≤ j → ts[j - i]? = some t →
      (firedFrom d i ts).filter (fun f => f.1 == j)
        = if firesTask d t then [(j, t.evt)] else [] := by
  intro ts
  induction ts with
  | nil => intro i _ h; simp at h
  | cons t0 ts ih =>
    intro i hij hget
    by_cases heq : i = j
    · subst heq
      simp only [Nat.sub_self, List.getElem?_cons_zero, Option.some.injEq] at hget
      subst hget
      have hrest := firedFrom_filter_lt d i ts (i + 1) (by omega)
      unfold firedFrom
      split
      · rw [List.filter_cons]; simp [hrest]
      · exact hrest
    · have hlt : i + 1 ≤ j := by omega
      have hidx : j - i = (j - (i + 1)) + 1 := by omega
      rw [hidx, List.getElem?_cons_succ] at hget
      have hrec := ih (i + 1) hlt hget
      have hne : (i == j) = false := by simp; omega
      unfold firedFrom
      split
      · rw [List.filter_cons]; simp only [hne]; simpa using hrec
      · exact hrec

theorem tickSpec_fired_slot (m : EventManager) (now i : Nat) (t : TimedTask)
    (hslot : m._interval[i]? = some t) :
    (tickSpec m now).fired.filter (fun f => f.1 == i)
      = if firesTask (subUL now m._previousMs) t then [(i, t.evt)] else [] :=
  firedFrom_filter _ i t m._interval 0 (Nat.zero_le _) (by simpa using hslot)

theorem stepTask_of_alive (d : Nat) (t : TimedTask) (halive : t.alive = true) :
    stepTask d t = if addUL t.current d ≥ t.ms then { t with current := 0 }
                   else { t with current := addUL t.current d } := by
  simp only [stepTask, halive, if_true, TimedTask.eval, TimedTask.advance]
  split <;> rfl

theorem firesTask_of_alive (d : Nat) (t : TimedTask) (halive : t.alive = true) :
    firesTask d t = decide (addUL t.current d ≥ t.ms) := by
  simp only [firesTask, halive, Bool.true_and, TimedTask.eval, TimedTask.advance]
  split <;> simp_all

theorem stepTask_of_dead (d : Nat) (t : TimedTask) (hdead : t.alive = false) :
    stepTask d t = t := by
  simp [stepTask, hdead]

theorem firesTask_of_dead (d : Nat) (t : TimedTask) (hdead : t.alive = false) :
    firesTask d t = false := by
  simp [firesTask, hdead]

theorem firedFrom_of_dead (d : Nat) :
    ∀ (ts : List TimedTask) (i : Nat), (∀ t ∈ ts, t.alive = false) → firedFrom d i ts = [] := by
  intro ts
  induction ts with
  | nil => intro i _; rfl
  | cons t ts ih =>
    intro i h
    have ht := firesTask_of_dead d t (h t (List.mem_cons_self _ _))
    simp only [firedFrom, ht]
    exact ih (i + 1) fun x hx => h x (List.mem_cons_of_mem _ hx)

theorem map_stepTask_of_dead (d : Nat) :
    ∀ (ts : List TimedTask), (∀ t ∈ ts, t.alive = false) → ts.map (stepTask d) = ts := by
  intro ts
  induction ts with
  | nil => intro _; rfl
  | cons t ts ih =>
    intro h
    rw [List.map_cons, stepTask_of_dead d t (h t (List.mem_cons_self _ _)),
      ih fun x hx => h x (List.mem_cons_of_mem _ hx)]

theorem safe_of_dead (m : EventManager) (h : ∀ t ∈ m._interval, t.alive = false) : m.Safe := by
  intro t ht halive
  rw [h t ht] at halive
  exact absurd halive (by decide)

theorem ticks_of_dead :
    ∀ (nows : List Nat) (m : EventManager), m.WF → (∀ t ∈ m._interval, t.alive = false) →
      ∃ mEnd rs, ticks m nows = .ok (mEnd, rs) ∧ rs.length = nows.length ∧
        mEnd._interval = m._interval ∧ ∀ r ∈ rs, r.fired = [] ∧ r.calls = [] := by
  intro nows
  induction nows with
  | nil => intro m _ _; exact ⟨m, [], rfl, rfl, rfl, by simp⟩
  | cons now rest ih =>
    intro m hwf hdead
    have htick := tick_eq m now hwf (safe_of_dead m hdead)
    have hint : (tickSpec m now).mgr._interval = m._interval :=
      map_stepTask_of_dead _ m._interval hdead
    have hfired : (tickSpec m now).fired = [] := firedFrom_of_dead _ m._interval 0 hdead
    have hcalls : (tickSpec m now).calls = [] := by
      show List.flatMap (firedFrom _ 0 m._interval) _ = []
      rw [firedFrom_of_dead _ m._interval 0 hdead]; rfl
    obtain ⟨mEnd, rs, hticks, hlen, hend, hall⟩ :=
      ih (tickSpec m now).mgr (tickSpec_wf m now hwf) (by rw [hint]; exact hdead)
    refine ⟨mEnd, tickSpec m now :: rs, ?_, by simp [hlen], by rw [hend, hint], ?_⟩
    · simp only [ticks, htick, hticks]
    · intro r hr
      rcases List.mem_cons.mp hr with h | h
      · rw [h]; exact ⟨hfired, hcalls⟩
      · exact hall r h

/-! ## Sequences of ticks -/

theorem ticks_slot (i : Nat) :
    ∀ (nows : List Nat) (m : EventManager) (t : TimedTask), m.WF → m.Safe →
      m._interval[i]? = some t →
      ∃ mEnd rs, ticks m nows = .ok (mEnd, rs) ∧
        rs.map (fun r => (r.fired.filter (fun f => f.1 == i), r.mgr._interval[i]?))
          = (runTask t (deltas m._previousMs nows)).map
              (fun p => (if p.1 then [(i, t.evt)] else [], some p.2)) := by
  intro nows
  induction nows with
  | nil => intro m t _ _ _; exact ⟨m, [], rfl, rfl⟩
  | cons now rest ih =>
    intro m t hwf hsafe hslot
    have htick := tick_eq m now hwf hsafe
    have hslot' : (tickSpec m now).mgr._interval[i]?
        = some (stepTask (subUL now m._previousMs) t) := by
      rw [tickSpec_slot, hslot]; rfl
    obtain ⟨mEnd, rs, hticks, hmap⟩ :=
      ih (tickSpec m now).mgr _ (tickSpec_wf m now hwf) (tickSpec_safe m now hsafe) hslot'
    refine ⟨mEnd, tickSpec m now :: rs, ?_, ?_⟩
    · simp only [ticks, htick, hticks]
    · have hprev : (tickSpec m now).mgr._previousMs = now := rfl
      rw [hprev, stepTask_evt] at hmap
      simp only [List.map_cons, deltas, runTask, hmap, hslot',
        tickSpec_fired_slot m now i t hslot]

theorem addUL_of_lt (a d : Nat) (h : a + d < 2 ^ 32) : addUL a d = a + d :=
  Nat.mod_eq_of_lt h

theorem runTask_before_first_fire :
    ∀ (ds : List Nat) (t : TimedTask) (k : Nat), t.alive = true → k < ds.length →
      t.current + (ds.take (k + 1)).sum < 2 ^ 32 →
      (t.current + (ds.take (k + 1)).sum < t.ms →
        (runTask t ds)[k]?
          = some (false, { t with current := t.current + (ds.take (k + 1)).sum })) ∧
      (t.current + (ds.take k).sum < t.ms → t.ms ≤ t.current + (ds.take (k + 1)).sum →
        (runTask t ds)[k]? = some (true, { t with current := 0 })) := by
  intro ds
  induction ds with
  | nil => intro t k _ hk; simp at hk
  | cons d ds ih =>
    intro t k halive hk hbound
    cases k with
    | zero =>
      simp only [Nat.zero_add, List.take_succ_cons, List.take_zero, List.sum_cons,
        List.sum_nil, Nat.add_zero] at hbound ⊢
      have hadd := addUL_of_lt _ _ hbound
      constructor
      · intro hlt
        simp only [runTask, List.getElem?_cons_zero, firesTask_of_alive _ t halive,
          stepTask_of_alive _ t halive, hadd, if_neg (Nat.not_le.mpr hlt),
          decide_eq_false (Nat.not_le.mpr hlt)]
      · intro _ hge
        simp only [runTask, List.getElem?_cons_zero, firesTask_of_alive _ t halive,
          stepTask_of_alive _ t halive, hadd, if_pos hge, decide_eq_true hge]
    | succ k =>
      simp only [List.take_succ_cons, List.sum_cons, List.length_cons] at hbound hk ⊢
      have hd : t.current + d < 2 ^ 32 := by omega
      have hadd := addUL_of_lt _ _ hd
      have key : t.current + d < t.ms →
          stepTask d t = { t with current := t.current + d } := by
        intro hlt
        rw [stepTask_of_alive _ t halive, hadd, if_neg (Nat.not_le.mpr hlt)]
      have hrec : (t.current + d + (ds.take (k + 1)).sum < t.ms →
            (runTask { t with current := t.current + d } ds)[k]?
              = some (false, { t with current := t.current + d + (ds.take (k + 1)).sum })) ∧
          (t.current + d + (ds.take k).sum < t.ms →
            t.ms ≤ t.current + d + (ds.take (k + 1)).sum →
            (runTask { t with current := t.current + d } ds)[k]?
              = some (true, { t with current := 0 })) :=
        ih { t with current := t.current + d } k halive (by omega)
          (by show t.current + d + _ < _; omega)
      constructor
      · intro hlt
        have hlt' : t.current + d < t.ms := by omega
        rw [runTask, List.getElem?_cons_succ, key hlt', hrec.1 (by omega)]
        simp [Nat.add_assoc]
      · intro hlt hge
        have hlt' : t.current + d < t.ms := by omega
        rw [runTask, List.getElem?_cons_succ, key hlt']
        exact hrec.2 (by omega) (by omega)

theorem triggerInterval_ok (m : EventManager) (task : TimedTask) (hwf : m.WF)
    (hpos : m._intervalPos < 5) (hsafe : m.Safe) (hevt : TriggerSafe m._sub task.evt) :
    ∃ m1, triggerInterval m task = .ok m1 ∧ m1.WF ∧ m1.Safe ∧
      m1._interval[m._intervalPos]? = some task ∧ m1._previousMs = m._previousMs ∧
      m1._sub = m._sub := by
  have h1 : m._intervalSize ≥ m._intervalPos := by rw [hwf.intervalSize_eq]; omega
  have h2 : m._intervalPos < m._interval.length := by rw [hwf.interval_length]; exact hpos
  refine ⟨{ m with _interval := m._interval.set m._intervalPos task,
                   _intervalPos := m._intervalPos + 1 }, ?_, ?_, ?_, ?_, rfl, rfl⟩
  · simp only [triggerInterval, h1, h2, if_true]
  · exact { interval_length := by simp [hwf.interval_length]
            intervalSize_eq := hwf.intervalSize_eq
            sub_length := hwf.sub_length
            subSize_eq := hwf.subSize_eq }
  · intro t ht halive
    rcases List.mem_or_eq_of_mem_set ht with h | h
    · exact hsafe t h halive
    · rw [h]; exact hevt
  · exact List.getElem?_set_self h2

theorem runTask_length (ds : List Nat) : ∀ t : TimedTask, (runTask t ds).length = ds.length := by
  induction ds with
  | nil => intro t; rfl
  | cons d ds ih => intro t; simp [runTask, ih]

theorem deltas_length (nows : List Nat) : ∀ prev : Nat, (deltas prev nows).length = nows.length := by
  induction nows with
  | nil => intro prev; rfl
  | cons now rest ih => intro prev; simp [deltas, ih]

theorem sum_take_le (ds : List Nat) : ∀ n : Nat, (ds.take n).sum ≤ ds.sum := by
  induction ds with
  | nil => intro n; simp
  | cons d ds ih =>
    intro n
    cases n with
    | zero => simp
    | succ n => simp only [List.take_succ_cons, List.sum_cons]; have := ih n; omega

/-- What `ticks_slot` says about the tick number `k`. -/
theorem ticks_slot_at {i : Nat} {t : TimedTask} {rs : List TickResult} {ds : List Nat}
    (hmap : rs.map (fun r => (r.fired.filter (fun f => f.1 == i), r.mgr._interval[i]?))
      = (runTask t ds).map (fun p => (if p.1 then [(i, t.evt)] else [], some p.2)))
    {k : Nat} {r : TickResult} (hr : rs[k]? = some r) {p : Bool × TimedTask}
    (hp : (runTask t ds)[k]? = some p) :
    r.fired.filter (fun f => f.1 == i) = (if p.1 then [(i, t.evt)] else []) ∧
      r.mgr._interval[i]? = some p.2 := by
  have h := congrArg (fun l => l[k]?) hmap
  simp only [List.getElem?_map, hr, hp, Option.map_some', Option.some.injEq] at h
  exact ⟨congrArg Prod.fst h, congrArg Prod.snd h⟩

theorem fireCount_eq_taskFires {i : Nat} :
    ∀ {ds : List Nat} {t : TimedTask} {e : Event} (rs : List TickResult),
      rs.map (fun r => (r.fired.filter (fun f => f.1 == i), r.mgr._interval[i]?))
        = (runTask t ds).map (fun p => (if p.1 then [(i, e)] else [], some p.2)) →
      fireCount i rs = taskFires t ds := by
  intro ds
  induction ds with
  | nil =>
    intro t e rs h
    cases rs with
    | nil => rfl
    | cons r rs => simp [runTask] at h
  | cons d ds ih =>
    intro t e rs h
    cases rs with
    | nil => simp [runTask] at h
    | cons r rs =>
      simp only [runTask, List.map_cons, List.cons.injEq, Prod.mk.injEq] at h
      obtain ⟨⟨hf, _⟩, hrest⟩ := h
      have := ih rs hrest
      simp only [fireCount, List.map_cons, List.sum_cons, taskFires] at this ⊢
      rw [this, hf]
      split <;> rfl

theorem taskFires_mul_le (ds : List Nat) :
    ∀ t : TimedTask, t.alive = true → t.current + ds.sum < 2 ^ 32 →
      taskFires t ds * t.ms ≤ t.current + ds.sum := by
  induction ds with
  | nil => intro t _ _; simp [taskFires]
  | cons d ds ih =>
    intro t halive hb
    simp only [List.sum_cons] at hb ⊢
    have hadd := addUL_of_lt t.current d (by omega)
    simp only [taskFires, firesTask_of_alive _ t halive, stepTask_of_alive _ t halive, hadd]
    by_cases hge : t.current + d ≥ t.ms
    · have hrec : taskFires { t with current := 0 } ds * t.ms ≤ 0 + ds.sum :=
        ih { t with current := 0 } halive (by show 0 + _ < _; omega)
      simp only [if_pos hge, decide_eq_true hge, if_true, Nat.add_mul, Nat.one_mul]
      omega
    · have hrec : taskFires { t with current := t.current + d } ds * t.ms
          ≤ t.current + d + ds.sum :=
        ih { t with current := t.current + d } halive (by show t.current + d + _ < _; omega)
      simp only [if_neg hge, decide_eq_false hge, Bool.false_eq_true, if_false, Nat.zero_add]
      omega

theorem taskFires_mul_le_succ (ds : List Nat) :
    ∀ t : TimedTask, t.alive = true → t.current + ds.sum < 2 ^ 32 →
      taskFires t ds * t.ms ≤ t.ms + ds.sum := by
  induction ds with
  | nil => intro t _ _; simp [taskFires]
  | cons d ds ih =>
    intro t halive hb
    simp only [List.sum_cons] at hb ⊢
    have hadd := addUL_of_lt t.current d (by omega)
    simp only [taskFires, firesTask_of_alive _ t halive, stepTask_of_alive _ t halive, hadd]
    by_cases hge : t.current + d ≥ t.ms
    · have hrec : taskFires { t with current := 0 } ds * t.ms ≤ 0 + ds.sum :=
        taskFires_mul_le ds { t with current := 0 } halive (by show 0 + _ < _; omega)
      simp only [if_pos hge, decide_eq_true hge, if_true, Nat.add_mul, Nat.one_mul]
      omega
    · have hrec : taskFires { t with current := t.current + d } ds * t.ms ≤ t.ms + ds.sum :=
        ih { t with current := t.current + d } halive (by show t.current + d + _ < _; omega)
      simp only [if_neg hge, decide_eq_false hge, Bool.false_eq_true, if_false, Nat.zero_add]
      omega

theorem taskFires_pos (ds : List Nat) :
    ∀ t : TimedTask, t.alive = true → t.current + ds.sum < 2 ^ 32 → ds ≠ [] →
      t.ms ≤ t.current + ds.sum → 1 ≤ taskFires t ds := by
  induction ds with
  | nil => intro t _ _ hne; exact absurd rfl hne
  | cons d ds ih =>
    intro t halive hb _ hreach
    simp only [List.sum_cons] at hb hreach
    have hadd := addUL_of_lt t.current d (by omega)
    simp only [taskFires, firesTask_of_alive _ t halive, stepTask_of_alive _ t halive, hadd]
    by_cases hge : t.current + d ≥ t.ms
    · simp only [if_pos hge, decide_eq_true hge, if_true]
      omega
    · have hne : ds ≠ [] := by
        intro h; rw [h] at hreach; simp at hreach; omega
      have hrec : 1 ≤ taskFires { t with current := t.current + d } ds :=
        ih { t with current := t.current + d } halive (by show t.current + d + _ < _; omega)
          hne (by show t.ms ≤ t.current + d + _; omega)
      simp only [if_neg hge, decide_eq_false hge, Bool.false_eq_true, if_false, Nat.zero_add]
      omega

/-! ## Registration past the capacity -/

theorem subscribeAll_append (a b : List Subscriber) :
    ∀ m : EventManager, subscribeAll m (a ++ b)
      = match subscribeAll m a with
        | .error f => .error f
        | .ok m1 => subscribeAll m1 b := by
  induction a with
  | nil => intro m; rfl
  | cons s a ih =>
    intro m
    simp only [List.cons_append, subscribeAll]
    cases subscribe m s with
    | error f => rfl
    | ok m1 => exact ih m1

theorem triggerIntervalAll_append (a b : List TimedTask) :
    ∀ m : EventManager, triggerIntervalAll m (a ++ b)
      = match triggerIntervalAll m a with
        | .error f => .error f
        | .ok m1 => triggerIntervalAll m1 b := by
  induction a with
  | nil => intro m; rfl
  | cons t a ih =>
    intro m
    simp only [List.cons_append, triggerIntervalAll]
    cases triggerInterval m t with
    | error f => rfl
    | ok m1 => exact ih m1

theorem subscribeAll_overfull (prev : Nat) (subs : List Subscriber) (h : 10 < subs.length) :
    subscribeAll (EventManager.fresh prev) subs = .error (.subStore 10) := by
  obtain ⟨s, rest, hdrop⟩ : ∃ s rest, subs.drop 10 = s :: rest := by
    cases hd : subs.drop 10 with
    | nil =>
      have := congrArg List.length hd
      simp at this; omega
    | cons s rest => exact ⟨s, rest, rfl⟩
  have htake : (subs.take 10).length = 10 := by simp; omega
  rw [← List.take_append_drop 10 subs, subscribeAll_append,
    subscribeAll_fresh prev (subs.take 10) (by omega), hdrop]
  simp [subscribeAll, subscribe, htake, EventManager.fresh, EventManager.new]

theorem triggerIntervalAll_overfull (prev : Nat) (tasks : List TimedTask)
    (h : 5 < tasks.length) :
    triggerIntervalAll (EventManager.fresh prev) tasks = .error (.intervalStore 5) := by
  obtain ⟨t, rest, hdrop⟩ : ∃ t rest, tasks.drop 5 = t :: rest := by
    cases hd : tasks.drop 5 with
    | nil =>
      have := congrArg List.length hd
      simp at this; omega
    | cons t rest => exact ⟨t, rest, rfl⟩
  have htake : (tasks.take 5).length = 5 := by simp; omega
  rw [← List.take_append_drop 5 tasks, triggerIntervalAll_append,
    triggerIntervalAll_fresh prev (tasks.take 5) (by omega), hdrop]
  simp [triggerIntervalAll, triggerInterval, htake, EventManager.fresh, EventManager.new]

/-! ## From one firing to the next -/

/-- An alive task in slot `i`, over the following ticks: no trigger while the
accumulator plus the elapsed time stays below the period, one trigger and a
reset on the tick at which it reaches the period (where the sum does not
wrap). -/
theorem ticks_until_fire (m : EventManager) (i : Nat) (t : TimedTask) (nows : List Nat)
    (hwf : m.WF) (hsafe : m.Safe) (hslot : m._interval[i]? = some t)
    (halive : t.alive = true) :
    ∃ mEnd rs, ticks m nows = .ok (mEnd, rs) ∧ rs.length = nows.length ∧
      ∀ (k : Nat) (r : TickResult), rs[k]? = some r →
        t.current + ((deltas m._previousMs nows).take (k + 1)).sum < 2 ^ 32 →
        (t.current + ((deltas m._previousMs nows).take (k + 1)).sum < t.ms →
          r.fired.filter (fun f => f.1 == i) = []) ∧
        (t.current + ((deltas m._previousMs nows).take k).sum < t.ms →
          t.ms ≤ t.current + ((deltas m._previousMs nows).take (k + 1)).sum →
          r.fired.filter (fun f => f.1 == i) = [(i, t.evt)] ∧
          r.mgr._interval[i]? = some { t with current := 0 }) := by
  obtain ⟨mEnd, rs, hticks, hmap⟩ := ticks_slot i nows m t hwf hsafe hslot
  have hlen : rs.length = nows.length := by
    have := congrArg List.length hmap
    simpa [runTask_length, deltas_length] using this
  refine ⟨mEnd, rs, hticks, hlen, ?_⟩
  intro k r hr hb
  have hk : k < (deltas m._previousMs nows).length := by
    rw [deltas_length, ← hlen]
    exact (List.getElem?_eq_some.mp hr).1
  have hrun := runTask_before_first_fire (deltas m._previousMs nows) t k halive hk hb
  constructor
  · intro hlt
    exact (ticks_slot_at hmap hr (hrun.1 hlt)).1
  · intro hlt hge
    exact ticks_slot_at hmap hr (hrun.2 hlt hge)

theorem ticks_first_tick (m : EventManager) (i : Nat) (t : TimedTask) (now : Nat)
    (rest : List Nat) (hwf : m.WF) (hsafe : m.Safe) (hslot : m._interval[i]? = some t)
    (halive : t.alive = true) (hb : t.current + subUL now m._previousMs < 2 ^ 32)
    (hge : t.ms ≤ t.current + subUL now m._previousMs) :
    ∃ mEnd r rs, ticks m (now :: rest) = .ok (mEnd, r :: rs) ∧
      r.fired.filter (fun f => f.1 == i) = [(i, t.evt)] ∧
      r.mgr._interval[i]? = some { t with current := 0 } := by
  obtain ⟨mEnd, rs, hticks, hmap⟩ := ticks_slot i (now :: rest) m t hwf hsafe hslot
  cases rs with
  | nil => simp [deltas, runTask] at hmap
  | cons r rs =>
    have hge' : addUL t.current (subUL now m._previousMs) ≥ t.ms := by
      rw [addUL_of_lt _ _ hb]; exact hge
    have hp : (runTask t (deltas m._previousMs (now :: rest)))[0]?
        = some (true, { t with current := 0 }) := by
      simp only [deltas, runTask, List.getElem?_cons_zero, firesTask_of_alive _ t halive,
        stepTask_of_alive _ t halive, if_pos hge', decide_eq_true hge']
    have h := ticks_slot_at hmap (List.getElem?_cons_zero) hp
    exact ⟨mEnd, r, rs, hticks, h.1, h.2⟩

/-! ## The elapsed time and the order of the triggers -/

theorem subUL_lt (a b : Nat) : subUL a b < 2 ^ 32 := by
  unfold subUL ulongMod
  exact Nat.mod_lt _ (by decide)

theorem subUL_add_mod (a b : Nat) : (subUL a b + b) % 2 ^ 32 = a % 2 ^ 32 := by
  unfold subUL ulongMod
  omega

theorem subUL_self (a : Nat) : subUL a a = 0 := by
  unfold subUL ulongMod
  omega

theorem subUL_of_elapsed (T1 T2 : Nat) (hle : T1 ≤ T2) (hlt : T2 - T1 < 2 ^ 32) :
    subUL (T2 % 2 ^ 32) (T1 % 2 ^ 32) = T2 - T1 := by
  unfold subUL ulongMod
  omega

theorem firedFrom_ge (d : Nat) :
    ∀ (ts : List TimedTask) (i : Nat), ∀ f ∈ firedFrom d i ts, i ≤ f.1 := by
  intro ts
  induction ts with
  | nil => intro i f hf; simp [firedFrom] at hf
  | cons t ts ih =>
    intro i f hf
    unfold firedFrom at hf
    split at hf
    · rcases List.mem_cons.mp hf with h | h
      · rw [h]
      · exact Nat.le_of_succ_le (ih (i + 1) f h)
    · exact Nat.le_of_succ_le (ih (i + 1) f hf)

theorem firedFrom_sorted (d : Nat) :
    ∀ (ts : List TimedTask) (i : Nat), (firedFrom d i ts).Pairwise (fun a b => a.1 < b.1) := by
  intro ts
  induction ts with
  | nil => intro i; simp [firedFrom]
  | cons t ts ih =>
    intro i
    unfold firedFrom
    split
    · exact List.Pairwise.cons (fun f hf => firedFrom_ge d ts (i + 1) f hf) (ih (i + 1))
    · exact ih (i + 1)

theorem firedFrom_mem (d : Nat) (j : Nat) (e : Event) :
    ∀ (ts : List TimedTask) (i : Nat),
      (j, e) ∈ firedFrom d i ts ↔
        ∃ t, i ≤ j ∧ ts[j - i]? = some t ∧ firesTask d t = true ∧ e = t.evt := by
  intro ts
  induction ts with
  | nil => intro i; simp [firedFrom]
  | cons t ts ih =>
    intro i
    have hrec := ih (i + 1)
    have hshift : ∀ x : TimedTask, i + 1 ≤ j →
        ((t :: ts)[j - i]? = some x ↔ ts[j - (i + 1)]? = some x) := by
      intro x hij
      have : j - i = (j - (i + 1)) + 1 := by omega
      rw [this]
      simp only [List.getElem?_cons_succ]
    have hhead : ∀ x : TimedTask, (t :: ts)[i - i]? = some x ↔ t = x := by
      intro x; simp
    unfold firedFrom
    constructor
    · intro hmem
      by_cases hf : firesTask d t = true
      · rw [if_pos hf] at hmem
        rcases List.mem_cons.mp hmem with h | h
        · simp only [Prod.mk.injEq] at h
          obtain ⟨rfl, rfl⟩ := h
          exact ⟨t, Nat.le_refl _, (hhead t).mpr rfl, hf, rfl⟩
        · obtain ⟨x, hij, hget, hx, he⟩ := hrec.mp h
          exact ⟨x, by omega, (hshift x hij).mpr hget, hx, he⟩
      · rw [if_neg hf] at hmem
        obtain ⟨x, hij, hget, hx, he⟩ := hrec.mp hmem
        exact ⟨x, by omega, (hshift x hij).mpr hget, hx, he⟩
    · rintro ⟨x, hij, hget, hx, he⟩
      by_cases heq : i = j
      · subst heq
        have := (hhead x).mp hget
        subst this
        rw [if_pos hx, he]
        exact List.mem_cons_self _ _
      · have hij' : i + 1 ≤ j := by omega
        have hin := hrec.mpr ⟨x, hij', (hshift x hij').mp hget, hx, he⟩
        split
        · exact List.mem_cons_of_mem _ hin
        · exact hin

theorem firedFrom_of_none_fires (d : Nat) :
    ∀ (ts : List TimedTask) (i : Nat), (∀ t ∈ ts, firesTask d t = false) →
      firedFrom d i ts = [] := by
  intro ts
  induction ts with
  | nil => intro i _; rfl
  | cons t ts ih =>
    intro i h
    simp only [firedFrom, h t (List.mem_cons_self _ _)]
    exact ih (i + 1) fun x hx => h x (List.mem_cons_of_mem _ hx)

theorem map_stepTask_of_fixed (d : Nat) :
    ∀ (ts : List TimedTask), (∀ t ∈ ts, stepTask d t = t) → ts.map (stepTask d) = ts := by
  intro ts
  induction ts with
  | nil => intro _; rfl
  | cons t ts ih =>
    intro h
    rw [List.map_cons, h t (List.mem_cons_self _ _),
      ih fun x hx => h x (List.mem_cons_of_mem _ hx)]

theorem addUL_lt (a d : Nat) : addUL a d < 2 ^ 32 := by
  unfold addUL ulongMod
  exact Nat.mod_lt _ (by decide)

/-- A task just stepped by a tick, of positive period when alive, is left as it
is by a further step with elapsed time 0, and that step does not fire. -/
theorem stepTask_zero_after_step (d : Nat) (t : TimedTask)
    (hpos : t.alive = true → 0 < t.ms) :
    stepTask 0 (stepTask d t) = stepTask d t ∧ firesTask 0 (stepTask d t) = false := by
  by_cases halive : t.alive = true
  · have halive1 : (stepTask d t).alive = true := by rw [stepTask_alive]; exact halive
    have hms : (stepTask d t).ms = t.ms := stepTask_ms d t
    have hcur : (stepTask d t).current < t.ms ∧ (stepTask d t).current < 2 ^ 32 := by
      rw [stepTask_of_alive _ t halive]
      by_cases hge : addUL t.current d ≥ t.ms
      · rw [if_pos hge]; exact ⟨hpos halive, Nat.pow_pos (by decide)⟩
      · rw [if_neg hge]; exact ⟨Nat.not_le.mp hge, addUL_lt _ _⟩
    have hadd : addUL (stepTask d t).current 0 = (stepTask d t).current :=
      addUL_of_lt _ _ (by omega)
    have hnot : ¬ addUL (stepTask d t).current 0 ≥ (stepTask d t).ms := by
      rw [hadd, hms]; omega
    constructor
    · rw [stepTask_of_alive 0 _ halive1, if_neg hnot, hadd]
    · rw [firesTask_of_alive 0 _ halive1]
      exact decide_eq_false hnot
  · have hdead : t.alive = false := by simpa using halive
    have hdead1 : (stepTask d t).alive = false := by rw [stepTask_alive]; exact hdead
    exact ⟨stepTask_of_dead 0 _ hdead1, firesTask_of_dead 0 _ hdead1⟩

theorem firesTask_iff (d : Nat) (t : TimedTask) :
    firesTask d t = true ↔ t.alive = true ∧ addUL t.current d ≥ t.ms := by
  by_cases halive : t.alive = true
  · rw [firesTask_of_alive d t halive]
    simp [halive]
  · have hdead : t.alive = false := by simpa using halive
    rw [firesTask_of_dead d t hdead]
    simp [hdead]

theorem tickSpec_fired_mem (m : EventManager) (now j : Nat) (e : Event) :
    (j, e) ∈ (tickSpec m now).fired ↔
      ∃ t, m._interval[j]? = some t ∧ t.alive = true ∧
        addUL t.current (subUL now m._previousMs) ≥ t.ms ∧ e = t.evt := by
  show (j, e) ∈ firedFrom _ 0 m._interval ↔ _
  rw [firedFrom_mem]
  constructor
  · rintro ⟨t, _, hget, hf, he⟩
    exact ⟨t, by simpa using hget, ((firesTask_iff _ t).mp hf).1, ((firesTask_iff _ t).mp hf).2, he⟩
  · rintro ⟨t, hget, ha, hge, he⟩
    exact ⟨t, Nat.zero_le _, by simpa using hget, (firesTask_iff _ t).mpr ⟨ha, hge⟩, he⟩

/-! ## The properties -/

/-- Where the fan-out of `trigger` works: on a fresh manager, after `n ≤ 10`
subscribe calls with non-null handlers, `trigger e` for an event whose label is
not the empty string (or for any event when all 10 slots are taken) returns,
leaves the manager as it is, and invokes exactly the handlers of the
subscriptions whose label equals the label of `e` as a string, once each, in
subscription order, each with `e`. -/
theorem trigger_invokes_matching_in_order (prev : Nat) (regs : List (CStr × EventTask))
    (e : Event) (hn : regs.length ≤ 10) (he : toStr e.label ≠ "" ∨ regs.length = 10) :
    ∃ m, subscribeAll (EventManager.fresh prev)
          (regs.map fun r => Subscriber.new r.1 (some r.2)) = .ok m ∧
      trigger m e = .ok (m,
        (regs.filter fun r => toStr r.1 == toStr e.label).map fun r => (r.2, e)) := by
  have h := trigger_after_subscribeAll prev
    (regs.map fun r => Subscriber.new r.1 (some r.2)) e
    (by simpa using hn) (by simpa using he) (triggerSafe_registered e regs)
  rw [matchCalls_registered] at h
  exact h

/-- The fan-out on the scenario of the specification: H1 (handler 1) then H2
(handler 2) subscribed to "alarm"; `trigger("alarm")` invokes H1 then H2. -/
theorem trigger_invokes_matching_in_order_witness :
    ∃ m, subscribeAll (EventManager.fresh 0)
          [Subscriber.new (some "alarm") (some 1), Subscriber.new (some "alarm") (some 2)]
          = .ok m ∧
      trigger m (Event.ofLabel (some "alarm"))
        = .ok (m, [(1, Event.ofLabel (some "alarm")), (2, Event.ofLabel (some "alarm"))]) :=
  trigger_invokes_matching_in_order 0 [(some "alarm", 1), (some "alarm", 2)]
    (Event.ofLabel (some "alarm")) (by decide) (Or.inl (by decide))

/-- C1 (code defect): with H1 subscribed to "alarm" on a fresh manager,
`trigger("")` has no matching subscriber and should invoke nothing and return;
the code matches the unused slot 1 (its null label is the empty `String`) and
calls `execute` through the null handler of that slot. -/
theorem trigger_empty_label_hits_unused_slot :
    subscribeAll (EventManager.fresh 0) [Subscriber.new (some "alarm") (some 1)]
        = .ok { EventManager.fresh 0 with
                  _sub := Subscriber.new (some "alarm") (some 1)
                            :: List.replicate 9 Subscriber.empty,
                  _subPos := 1 } ∧
      trigger { EventManager.fresh 0 with
                  _sub := Subscriber.new (some "alarm") (some 1)
                            :: List.replicate 9 Subscriber.empty,
                  _subPos := 1 } (Event.ofLabel (some ""))
        = .error (.nullTask 1) :=
  ⟨rfl, rfl⟩

/-- Where an unsubscribed label is a no-op: on a fresh manager, after `n ≤ 10`
subscribe calls, `trigger e` for an event whose label is not the empty string
(or for any event when all 10 slots are taken) and differs, as a string, from
the label of every subscribed subscriber returns, leaves the manager as it is
and invokes no handler. -/
theorem trigger_unsubscribed_label_invokes_nothing (prev : Nat) (subs : List Subscriber)
    (e : Event) (hn : subs.length ≤ 10) (he : toStr e.label ≠ "" ∨ subs.length = 10)
    (hdiff : ∀ s ∈ subs, toStr s.label ≠ toStr e.label) :
    ∃ m, subscribeAll (EventManager.fresh prev) subs = .ok m ∧ trigger m e = .ok (m, []) := by
  have h := trigger_after_subscribeAll prev subs e hn he (triggerSafe_of_no_match e subs hdiff)
  rw [matchCalls_of_no_match e subs hdiff] at h
  exact h

/-- The no-op on the scenario of the specification: H (handler 7) subscribed to
"door_open"; `trigger("door_closed")` invokes nothing. -/
theorem trigger_unsubscribed_label_invokes_nothing_witness :
    ∃ m, subscribeAll (EventManager.fresh 0) [Subscriber.new (some "door_open") (some 7)]
          = .ok m ∧
      trigger m (Event.ofLabel (some "door_closed")) = .ok (m, []) :=
  trigger_unsubscribed_label_invokes_nothing 0 [Subscriber.new (some "door_open") (some 7)]
    (Event.ofLabel (some "door_closed")) (by decide) (Or.inl (by decide)) (by decide)

/-- C2 (code defect): with H subscribed to "door_open" on a fresh manager,
triggering `Event()`, whose null label differs from "door_open", should invoke
no handler; the code matches the unused slot 1 and calls `execute` through the
null handler of that slot. -/
theorem trigger_null_label_hits_unused_slot :
    subscribeAll (EventManager.fresh 0) [Subscriber.new (some "door_open") (some 7)]
        = .ok { EventManager.fresh 0 with
                  _sub := Subscriber.new (some "door_open") (some 7)
                            :: List.replicate 9 Subscriber.empty,
                  _subPos := 1 } ∧
      trigger { EventManager.fresh 0 with
                  _sub := Subscriber.new (some "door_open") (some 7)
                            :: List.replicate 9 Subscriber.empty,
                  _subPos := 1 } Event.empty
        = .error (.nullTask 1) :=
  ⟨rfl, rfl⟩

/-- C6 (code defect): on a fresh manager, after 10 subscribe calls the guard
`_subSize >= _subPos` (10 >= 10) still admits an 11th call, which stores at
`_sub[10]`, outside the 10 declared slots, instead of being dropped. -/
theorem subscribe_eleventh_stores_past_end (prev : Nat) (subs : List Subscriber)
    (s : Subscriber) (hlen : subs.length = 10) :
    ∃ m, subscribeAll (EventManager.fresh prev) subs = .ok m ∧ m._sub = subs ∧
      m._subPos = 10 ∧ m._subSize = 10 ∧ subscribe m s = .error (.subStore 10) := by
  refine ⟨_, subscribeAll_fresh prev subs (by omega), ?_, ?_, rfl, ?_⟩
  · simp [hlen]
  · exact hlen
  · simp [subscribe, hlen, EventManager.fresh, EventManager.new]

/-- C6 at a concrete input: ten subscribers of "a" with handlers 0 to 9, then an
eleventh subscriber of "b" with handler 10. -/
theorem subscribe_eleventh_stores_past_end_witness :
    ∃ m, subscribeAll (EventManager.fresh 0)
          ((List.range 10).map fun h => Subscriber.new (some "a") (some h)) = .ok m ∧
      m._sub = ((List.range 10).map fun h => Subscriber.new (some "a") (some h)) ∧
      m._subPos = 10 ∧ m._subSize = 10 ∧
      subscribe m (Subscriber.new (some "b") (some 10)) = .error (.subStore 10) :=
  subscribe_eleventh_stores_past_end 0
    ((List.range 10).map fun h => Subscriber.new (some "a") (some h))
    (Subscriber.new (some "b") (some 10)) (by decide)

/-- C7 (code defect): on a fresh manager, after 5 triggerInterval calls the
guard `_intervalSize >= _intervalPos` (5 >= 5) still admits a 6th call, which
stores at `_interval[5]`, outside the 5 declared slots, instead of being
dropped. -/
theorem triggerInterval_sixth_stores_past_end (prev : Nat) (tasks : List TimedTask)
    (t : TimedTask) (hlen : tasks.length = 5) :
    ∃ m, triggerIntervalAll (EventManager.fresh prev) tasks = .ok m ∧ m._interval = tasks ∧
      m._intervalPos = 5 ∧ m._intervalSize = 5 ∧
      triggerInterval m t = .error (.intervalStore 5) := by
  refine ⟨_, triggerIntervalAll_fresh prev tasks (by omega), ?_, ?_, rfl, ?_⟩
  · simp [hlen]
  · exact hlen
  · simp [triggerInterval, hlen, EventManager.fresh, EventManager.new]

/-- C7 at a concrete input: five tasks of periods 100 to 104 on "blink", then a
sixth of period 500 on "late". -/
theorem triggerInterval_sixth_stores_past_end_witness :
    ∃ m, triggerIntervalAll (EventManager.fresh 0)
          ((List.range 5).map fun k => TimedTask.new (100 + k) (Event.ofLabel (some "blink")))
          = .ok m ∧
      m._interval
        = ((List.range 5).map fun k => TimedTask.new (100 + k) (Event.ofLabel (some "blink"))) ∧
      m._intervalPos = 5 ∧ m._intervalSize = 5 ∧
      triggerInterval m (TimedTask.new 500 (Event.ofLabel (some "late")))
        = .error (.intervalStore 5) :=
  triggerInterval_sixth_stores_past_end 0
    ((List.range 5).map fun k => TimedTask.new (100 + k) (Event.ofLabel (some "blink")))
    (TimedTask.new 500 (Event.ofLabel (some "late"))) (by decide)

/-- C8 (code defect): on a fresh manager with fewer than 10 subscribers, all
with non-null handlers, `trigger` of an event whose label is null or the empty
string matches the first unused slot (its null label converts to the empty
`String`) and calls `execute` through that slot's null handler. -/
theorem trigger_empty_label_calls_null_handler (prev : Nat) (regs : List (CStr × EventTask))
    (e : Event) (hn : regs.length < 10) (he : toStr e.label = "") :
    ∃ m, subscribeAll (EventManager.fresh prev)
          (regs.map fun r => Subscriber.new r.1 (some r.2)) = .ok m ∧
      trigger m e = .error (.nullTask regs.length) := by
  refine ⟨_, subscribeAll_fresh prev _ (by simpa using hn.le), ?_⟩
  obtain ⟨k, hk⟩ : ∃ k, 10 - regs.length = k + 1 := ⟨9 - regs.length, by omega⟩
  have h := triggerLoop_null e
    { EventManager.fresh prev with
        _sub := (regs.map fun r => Subscriber.new r.1 (some r.2))
                  ++ List.replicate (10 - (regs.map fun r =>
                        Subscriber.new r.1 (some r.2)).length) Subscriber.empty,
        _subPos := (regs.map fun r => Subscriber.new r.1 (some r.2)).length }
    Subscriber.empty ((sameLabel_empty_iff _).mpr he) rfl
    (regs.map fun r => Subscriber.new r.1 (some r.2)) [] (List.replicate k Subscriber.empty) k
    (by simp [hk, List.replicate_succ]) (triggerSafe_registered e regs)
  have hten : (regs.map fun r => Subscriber.new r.1 (some r.2)).length + 1 + k = 10 := by
    simp; omega
  rw [hten] at h
  simpa [trigger, EventManager.fresh, EventManager.new] using h

/-- C8 at concrete inputs: one subscriber of "alarm" with handler 1, then
`trigger(Event())`: the null handler of slot 1 is called. -/
theorem trigger_empty_label_calls_null_handler_witness :
    ∃ m, subscribeAll (EventManager.fresh 0) [Subscriber.new (some "alarm") (some 1)] = .ok m ∧
      trigger m Event.empty = .error (.nullTask 1) :=
  trigger_empty_label_calls_null_handler 0 [(some "alarm", 1)] Event.empty
    (by decide) (by decide)

/-- C10: `trigger` stores nothing in the manager.  Whenever it returns, every
field (subscriber slots and position, timed-task slots and position, previous
tick time) is as before; and it does return, with the manager as before,
whenever the scan stays inside the array and no matching slot has a null
handler. -/
theorem trigger_leaves_manager_unchanged (m : EventManager) (e : Event) :
    (∀ r, trigger m e = .ok r → r.1 = m) ∧
    (m._subSize = m._sub.length → TriggerSafe m._sub e →
      trigger m e = .ok (m, matchCalls e m._sub)) :=
  ⟨fun r h => triggerLoop_mgr e m m._subSize 0 r h, fun hsize hsafe => trigger_eq m e hsize hsafe⟩

/-- C3 (as amended): for an alive timed task in a slot and a tick with elapsed
time `d` (on a manager whose triggers do not reach a null handler), with
`accumulator + d` the 32-bit sum the code computes: if it is at least the
period, `tick` sets the accumulator to 0 and passes the stored event to
`trigger` exactly once for that slot; otherwise it sets the accumulator to that
sum and makes no trigger for that slot.  Period, event and alive flag are
unchanged either way. -/
theorem tick_alive_task (m : EventManager) (now i : Nat) (t : TimedTask)
    (hwf : m.WF) (hsafe : m.Safe) (hslot : m._interval[i]? = some t)
    (halive : t.alive = true) :
    ∃ r, tick m now = .ok r ∧
      (addUL t.current (subUL now m._previousMs) ≥ t.ms →
        r.mgr._interval[i]? = some { t with current := 0 } ∧
        r.fired.filter (fun f => f.1 == i) = [(i, t.evt)]) ∧
      (addUL t.current (subUL now m._previousMs) < t.ms →
        r.mgr._interval[i]?
          = some { t with current := addUL t.current (subUL now m._previousMs) } ∧
        r.fired.filter (fun f => f.1 == i) = []) := by
  refine ⟨_, tick_eq m now hwf hsafe, ?_, ?_⟩
  · intro hge
    rw [tickSpec_slot, hslot, tickSpec_fired_slot m now i t hslot,
      firesTask_of_alive _ t halive, Option.map_some', stepTask_of_alive _ t halive,
      if_pos hge, if_pos (decide_eq_true hge)]
    exact ⟨rfl, rfl⟩
  · intro hlt
    rw [tickSpec_slot, hslot, tickSpec_fired_slot m now i t hslot,
      firesTask_of_alive _ t halive, Option.map_some', stepTask_of_alive _ t halive,
      if_neg (Nat.not_le.mpr hlt), if_neg (by simpa using hlt)]
    exact ⟨rfl, rfl⟩

/-- C3 at a concrete input: period 100 on "blink" in slot 0 with accumulator 60,
no subscriber, previous tick at 0 and a tick at 40. -/
theorem tick_alive_task_witness :
    ∃ r, tick { EventManager.fresh 0 with
                  _interval := TimedTask.new 100 (Event.ofLabel (some "blink"))
                                 :: List.replicate 4 TimedTask.empty,
                  _intervalPos := 1 } 40 = .ok r ∧
      (addUL 60 (subUL 40 0) ≥ 100 →
        r.mgr._interval[0]?
          = some { TimedTask.new 100 (Event.ofLabel (some "blink")) with current := 0 } ∧
        r.fired.filter (fun f => f.1 == 0) = [(0, Event.ofLabel (some "blink"))]) ∧
      (addUL 60 (subUL 40 0) < 100 →
        r.mgr._interval[0]?
          = some { TimedTask.new 100 (Event.ofLabel (some "blink")) with
                     current := addUL 60 (subUL 40 0) } ∧
        r.fired.filter (fun f => f.1 == 0) = []) :=
  tick_alive_task
    { EventManager.fresh 0 with
        _interval := TimedTask.new 100 (Event.ofLabel (some "blink"))
                       :: List.replicate 4 TimedTask.empty,
        _intervalPos := 1 } 40 0 (TimedTask.new 100 (Event.ofLabel (some "blink")))
    ⟨rfl, rfl, rfl, rfl⟩
    (by decide)
    rfl rfl

/-- C3 fails when `accumulator + d` is read as the plain sum: a task of period
4294967295 registered on a fresh manager has accumulator 60; a tick with elapsed
time 4294967246 makes the plain sum 4294967306, above the period, yet the code's
32-bit sum is 10: no trigger, and the accumulator is 10, not 0. -/
theorem tick_sum_wraps_without_firing :
    triggerInterval (EventManager.fresh 0) (TimedTask.new 4294967295 (Event.ofLabel (some "e")))
        = .ok { EventManager.fresh 0 with
                  _interval := TimedTask.new 4294967295 (Event.ofLabel (some "e"))
                                 :: List.replicate 4 TimedTask.empty,
                  _intervalPos := 1 } ∧
      60 + 4294967246 ≥ 4294967295 ∧
      tick { EventManager.fresh 0 with
                  _interval := TimedTask.new 4294967295 (Event.ofLabel (some "e"))
                                 :: List.replicate 4 TimedTask.empty,
                  _intervalPos := 1 } 4294967246
        = .ok { mgr := { EventManager.fresh 0 with
                  _interval := { TimedTask.new 4294967295 (Event.ofLabel (some "e")) with
                                   current := 10 } :: List.replicate 4 TimedTask.empty,
                  _intervalPos := 1,
                  _previousMs := 4294967246 }
                fired := []
                calls := [] } :=
  ⟨rfl, by decide, rfl⟩

/-- C5: a timed-task slot whose alive flag is false (as in every
default-constructed slot) is left exactly as it is by `tick`, accumulator
included, and no `trigger` is made for it, whatever the elapsed time; and on a
manager none of whose slots is alive (no registered timed task) every sequence
of ticks returns and makes no trigger and no handler invocation. -/
theorem tick_dead_slot_inert (m : EventManager) (hwf : m.WF) :
    (m.Safe → ∀ (now i : Nat) (t : TimedTask), m._interval[i]? = some t → t.alive = false →
      ∃ r, tick m now = .ok r ∧ r.mgr._interval[i]? = some t ∧
        r.fired.filter (fun f => f.1 == i) = []) ∧
    ((∀ t ∈ m._interval, t.alive = false) → ∀ nows : List Nat,
      ∃ mEnd rs, ticks m nows = .ok (mEnd, rs) ∧ rs.length = nows.length ∧
        mEnd._interval = m._interval ∧ ∀ r ∈ rs, r.fired = [] ∧ r.calls = []) := by
  refine ⟨?_, fun hdead nows => ticks_of_dead nows m hwf hdead⟩
  intro hsafe now i t hslot hdead
  refine ⟨_, tick_eq m now hwf hsafe, ?_, ?_⟩
  · rw [tickSpec_slot, hslot, Option.map_some', stepTask_of_dead _ t hdead]
  · rw [tickSpec_fired_slot m now i t hslot, firesTask_of_dead _ t hdead]
    rfl

/-- C5 at a concrete input: the fresh manager, all of whose timed-task slots are
default-constructed. -/
theorem tick_dead_slot_inert_witness :
    (∀ (now i : Nat) (t : TimedTask),
        (EventManager.fresh 0)._interval[i]? = some t → t.alive = false →
        ∃ r, tick (EventManager.fresh 0) now = .ok r ∧ r.mgr._interval[i]? = some t ∧
          r.fired.filter (fun f => f.1 == i) = []) ∧
    (∀ nows : List Nat,
        ∃ mEnd rs, ticks (EventManager.fresh 0) nows = .ok (mEnd, rs) ∧
          rs.length = nows.length ∧ mEnd._interval = (EventManager.fresh 0)._interval ∧
          ∀ r ∈ rs, r.fired = [] ∧ r.calls = []) :=
  ⟨(tick_dead_slot_inert (EventManager.fresh 0) ⟨rfl, rfl, rfl, rfl⟩).1 (by decide),
   (tick_dead_slot_inert (EventManager.fresh 0) ⟨rfl, rfl, rfl, rfl⟩).2 (by decide)⟩

/-- C4 (as amended): a task `TimedTask(P, evt)` registered by `triggerInterval`
starts with accumulator 60.  Over the following ticks (sums below 2^32, no
trigger reaching a null handler) it does not fire on any tick before 60 plus
the cumulative elapsed time reaches `P`, and on the first tick at which it does
(the very first tick when `P <= 60`) it is passed to `trigger` exactly once and
its accumulator is 0 afterwards. -/
theorem timed_task_first_fire (m : EventManager) (P : Nat) (evt : Event) (nows : List Nat)
    (hwf : m.WF) (hpos : m._intervalPos < 5) (hsafe : m.Safe)
    (hevt : TriggerSafe m._sub evt)
    (hbound : 60 + (deltas m._previousMs nows).sum < 2 ^ 32) :
    ∃ m1 mEnd rs, triggerInterval m (TimedTask.new P evt) = .ok m1 ∧
      ticks m1 nows = .ok (mEnd, rs) ∧ rs.length = nows.length ∧
      ∀ (k : Nat) (r : TickResult), rs[k]? = some r →
        (60 + ((deltas m._previousMs nows).take (k + 1)).sum < P →
          r.fired.filter (fun f => f.1 == m._intervalPos) = []) ∧
        (k = 0 ∨ 60 + ((deltas m._previousMs nows).take k).sum < P →
          P ≤ 60 + ((deltas m._previousMs nows).take (k + 1)).sum →
          r.fired.filter (fun f => f.1 == m._intervalPos) = [(m._intervalPos, evt)] ∧
          r.mgr._interval[m._intervalPos]?
            = some { TimedTask.new P evt with current := 0 }) := by
  obtain ⟨m1, hreg, hwf1, hsafe1, hslot1, hprev1, _⟩ :=
    triggerInterval_ok m (TimedTask.new P evt) hwf hpos hsafe hevt
  obtain ⟨mEnd, rs, hticks, hmap⟩ := ticks_slot m._intervalPos nows m1 _ hwf1 hsafe1 hslot1
  rw [hprev1] at hmap
  have hlen : rs.length = nows.length := by
    have := congrArg List.length hmap
    simpa [runTask_length, deltas_length] using this
  refine ⟨m1, mEnd, rs, hreg, hticks, hlen, ?_⟩
  intro k r hr
  have hk : k < (deltas m._previousMs nows).length := by
    rw [deltas_length, ← hlen]
    exact (List.getElem?_eq_some.mp hr).1
  have hb : (TimedTask.new P evt).current + ((deltas m._previousMs nows).take (k + 1)).sum
      < 2 ^ 32 := by
    have := sum_take_le (deltas m._previousMs nows) (k + 1)
    show 60 + _ < _
    omega
  have hrun := runTask_before_first_fire (deltas m._previousMs nows) (TimedTask.new P evt) k
    rfl hk hb
  constructor
  · intro hlt
    exact (ticks_slot_at hmap hr (hrun.1 hlt)).1
  · intro hfirst hge
    by_cases hlt : 60 + ((deltas m._previousMs nows).take k).sum < P
    · exact ticks_slot_at hmap hr (hrun.2 hlt hge)
    · have hk0 : k = 0 := hfirst.resolve_right hlt
      subst hk0
      cases nows with
      | nil => simp at hlen; subst hlen; simp at hr
      | cons now rest =>
        simp only [deltas, List.take_succ_cons, List.take_zero, List.sum_cons, List.sum_nil,
          Nat.add_zero, Nat.zero_add] at hb hge
        obtain ⟨mEnd2, r2, rs2, hticks2, hfired2, hslot2⟩ :=
          ticks_first_tick m1 m._intervalPos (TimedTask.new P evt) now rest hwf1 hsafe1
            hslot1 rfl (by rw [hprev1]; exact hb) (by rw [hprev1]; exact hge)
        rw [hticks] at hticks2
        simp only [Except.ok.injEq, Prod.mk.injEq] at hticks2
        rw [hticks2.2] at hr
        simp only [List.getElem?_cons_zero, Option.some.injEq] at hr
        rw [← hr]
        exact ⟨hfired2, hslot2⟩

/-- C4 at concrete inputs, on a fresh manager: period 100 on "blink" with ticks
at 40, 80 and 120 ms (the scenario of the specification), and period 50 on
"blink" with ticks at 10 and 20 ms (a period below the seed). -/
theorem timed_task_first_fire_witness :
    (∃ m1 mEnd rs, triggerInterval (EventManager.fresh 0)
          (TimedTask.new 100 (Event.ofLabel (some "blink"))) = .ok m1 ∧
      ticks m1 [40, 80, 120] = .ok (mEnd, rs) ∧ rs.length = [40, 80, 120].length ∧
      ∀ (k : Nat) (r : TickResult), rs[k]? = some r →
        (60 + ((deltas 0 [40, 80, 120]).take (k + 1)).sum < 100 →
          r.fired.filter (fun f => f.1 == 0) = []) ∧
        (k = 0 ∨ 60 + ((deltas 0 [40, 80, 120]).take k).sum < 100 →
          100 ≤ 60 + ((deltas 0 [40, 80, 120]).take (k + 1)).sum →
          r.fired.filter (fun f => f.1 == 0) = [(0, Event.ofLabel (some "blink"))] ∧
          r.mgr._interval[0]?
            = some { TimedTask.new 100 (Event.ofLabel (some "blink")) with current := 0 })) ∧
    (∃ m1 mEnd rs, triggerInterval (EventManager.fresh 0)
          (TimedTask.new 50 (Event.ofLabel (some "blink"))) = .ok m1 ∧
      ticks m1 [10, 20] = .ok (mEnd, rs) ∧ rs.length = [10, 20].length ∧
      ∀ (k : Nat) (r : TickResult), rs[k]? = some r →
        (60 + ((deltas 0 [10, 20]).take (k + 1)).sum < 50 →
          r.fired.filter (fun f => f.1 == 0) = []) ∧
        (k = 0 ∨ 60 + ((deltas 0 [10, 20]).take k).sum < 50 →
          50 ≤ 60 + ((deltas 0 [10, 20]).take (k + 1)).sum →
          r.fired.filter (fun f => f.1 == 0) = [(0, Event.ofLabel (some "blink"))] ∧
          r.mgr._interval[0]?
            = some { TimedTask.new 50 (Event.ofLabel (some "blink")) with current := 0 })) :=
  ⟨timed_task_first_fire (EventManager.fresh 0) 100 (Event.ofLabel (some "blink"))
      [40, 80, 120] ⟨rfl, rfl, rfl, rfl⟩ (by decide) (by decide) (by decide) (by decide),
   timed_task_first_fire (EventManager.fresh 0) 50 (Event.ofLabel (some "blink"))
      [10, 20] ⟨rfl, rfl, rfl, rfl⟩ (by decide) (by decide) (by decide) (by decide)⟩

/-- C4 fails as stated, on the scenario of the specification: period 100 on
"blink" registered on a fresh manager and ticks at 40, 80 and 120 ms.  The
trigger is made on the first tick (60 + 40 reaches 100), none on the second and
third, and the accumulator after the third tick is 80, not 0. -/
theorem blink_fires_on_first_tick :
    triggerInterval (EventManager.fresh 0) (TimedTask.new 100 (Event.ofLabel (some "blink")))
        = .ok { EventManager.fresh 0 with
                  _interval := TimedTask.new 100 (Event.ofLabel (some "blink"))
                                 :: List.replicate 4 TimedTask.empty,
                  _intervalPos := 1 } ∧
      (ticks { EventManager.fresh 0 with
                  _interval := TimedTask.new 100 (Event.ofLabel (some "blink"))
                                 :: List.replicate 4 TimedTask.empty,
                  _intervalPos := 1 } [40, 80, 120]).map
          (fun p => (p.2.map (fun r => r.fired), p.1._interval[0]?))
        = .ok ([[(0, Event.ofLabel (some "blink"))], [], []],
               some { TimedTask.new 100 (Event.ofLabel (some "blink")) with current := 80 }) :=
  ⟨rfl, rfl⟩

/-- C9 (as amended): for a task `TimedTask(P, evt)` with `P > 0` registered by
`triggerInterval`, every sequence of ticks whose elapsed times sum to `2 * P`
(with `2 * P + 60` below 2^32 and no trigger reaching a null handler) passes
its event to `trigger` at least once and at most three times, and at most twice
when `P > 60`. -/
theorem two_periods_fire_count (m : EventManager) (P : Nat) (evt : Event) (nows : List Nat)
    (hwf : m.WF) (hpos : m._intervalPos < 5) (hsafe : m.Safe)
    (hevt : TriggerSafe m._sub evt) (hP : 0 < P)
    (hsum : (deltas m._previousMs nows).sum = 2 * P) (hbound : 2 * P + 60 < 2 ^ 32) :
    ∃ m1 mEnd rs, triggerInterval m (TimedTask.new P evt) = .ok m1 ∧
      ticks m1 nows = .ok (mEnd, rs) ∧
      1 ≤ fireCount m._intervalPos rs ∧ fireCount m._intervalPos rs ≤ 3 ∧
      (60 < P → fireCount m._intervalPos rs ≤ 2) := by
  obtain ⟨m1, hreg, hwf1, hsafe1, hslot1, hprev1, _⟩ :=
    triggerInterval_ok m (TimedTask.new P evt) hwf hpos hsafe hevt
  obtain ⟨mEnd, rs, hticks, hmap⟩ := ticks_slot m._intervalPos nows m1 _ hwf1 hsafe1 hslot1
  rw [hprev1] at hmap
  have hcount := fireCount_eq_taskFires rs hmap
  have hb : (TimedTask.new P evt).current + (deltas m._previousMs nows).sum < 2 ^ 32 := by
    show 60 + _ < _; omega
  have hne : deltas m._previousMs nows ≠ [] := by
    intro h; rw [h] at hsum; simp at hsum; omega
  have hlow := taskFires_pos _ (TimedTask.new P evt) rfl hb hne (by show P ≤ 60 + _; omega)
  have hup : taskFires (TimedTask.new P evt) (deltas m._previousMs nows) * P
      ≤ P + (deltas m._previousMs nows).sum :=
    taskFires_mul_le_succ _ (TimedTask.new P evt) rfl hb
  have hup0 : taskFires (TimedTask.new P evt) (deltas m._previousMs nows) * P
      ≤ 60 + (deltas m._previousMs nows).sum :=
    taskFires_mul_le _ (TimedTask.new P evt) rfl hb
  rw [hsum] at hup hup0
  refine ⟨m1, mEnd, rs, hreg, hticks, by rw [hcount]; exact hlow, ?_, ?_⟩
  · rw [hcount]
    by_contra hc
    have h4 : 4 ≤ taskFires (TimedTask.new P evt) (deltas m._previousMs nows) := by omega
    have := Nat.mul_le_mul_right P h4
    omega
  · intro h60
    rw [hcount]
    by_contra hc
    have h3 : 3 ≤ taskFires (TimedTask.new P evt) (deltas m._previousMs nows) := by omega
    have := Nat.mul_le_mul_right P h3
    omega

/-- C9 at a concrete input: period 100 on "blink" registered on a fresh
manager, ticks at 50, 100, 150 and 200 ms. -/
theorem two_periods_fire_count_witness :
    ∃ m1 mEnd rs, triggerInterval (EventManager.fresh 0)
          (TimedTask.new 100 (Event.ofLabel (some "blink"))) = .ok m1 ∧
      ticks m1 [50, 100, 150, 200] = .ok (mEnd, rs) ∧
      1 ≤ fireCount 0 rs ∧ fireCount 0 rs ≤ 3 ∧ (60 < 100 → fireCount 0 rs ≤ 2) :=
  two_periods_fire_count (EventManager.fresh 0) 100 (Event.ofLabel (some "blink"))
    [50, 100, 150, 200] ⟨rfl, rfl, rfl, rfl⟩ (by decide) (by decide) (by decide) (by decide)
    (by decide) (by decide)

/-- C9 fails as stated.  Period 100, one tick with elapsed time 200 = 2 * 100:
the event is triggered once.  Period 60, ticks with elapsed times 0, 60, 60
(sum 120 = 2 * 60): the event is triggered three times. -/
theorem two_periods_fire_once_or_thrice :
    (ticks { EventManager.fresh 0 with
                _interval := TimedTask.new 100 (Event.ofLabel (some "blink"))
                               :: List.replicate 4 TimedTask.empty,
                _intervalPos := 1 } [200]).map (fun p => (deltas 0 [200], fireCount 0 p.2))
        = .ok ([200], 1) ∧
      (ticks { EventManager.fresh 0 with
                _interval := TimedTask.new 60 (Event.ofLabel (some "blink"))
                               :: List.replicate 4 TimedTask.empty,
                _intervalPos := 1 } [0, 60, 120]).map
          (fun p => (deltas 0 [0, 60, 120], fireCount 0 p.2))
        = .ok ([0, 60, 60], 3) :=
  ⟨rfl, rfl⟩

/-- C11 (code defect): the capacity guards admit one registration too many.  On
a fresh manager every sequence of more than 10 subscribe calls reaches a store
at `_sub[10]`, and every sequence of more than 5 triggerInterval calls reaches
a store at `_interval[5]`: the out-of-range index is reached, and the call made
when the list is full is not a no-op. -/
theorem registration_past_capacity_stores_out_of_range (prev : Nat)
    (subs : List Subscriber) (tasks : List TimedTask)
    (hs : 10 < subs.length) (ht : 5 < tasks.length) :
    subscribeAll (EventManager.fresh prev) subs = .error (.subStore 10) ∧
      triggerIntervalAll (EventManager.fresh prev) tasks = .error (.intervalStore 5) :=
  ⟨subscribeAll_overfull prev subs hs, triggerIntervalAll_overfull prev tasks ht⟩

/-- C11 at a concrete input: eleven subscribers of "a" and six tasks of period
100 on "blink". -/
theorem registration_past_capacity_stores_out_of_range_witness :
    subscribeAll (EventManager.fresh 0)
        (List.replicate 11 (Subscriber.new (some "a") (some 1))) = .error (.subStore 10) ∧
      triggerIntervalAll (EventManager.fresh 0)
        (List.replicate 6 (TimedTask.new 100 (Event.ofLabel (some "blink"))))
        = .error (.intervalStore 5) :=
  registration_past_capacity_stores_out_of_range 0
    (List.replicate 11 (Subscriber.new (some "a") (some 1)))
    (List.replicate 6 (TimedTask.new 100 (Event.ofLabel (some "blink"))))
    (by decide) (by decide)

/-- C12: an alive task with period `P` (positive or not) that fires on a tick has
accumulator 0 afterwards, whatever the overshoot.  Over the following ticks it is not
triggered while the sum of the elapsed times after the firing tick is below
`P`, and it is triggered (once, with a reset to 0) on the first tick at which
that sum reaches `P`, where accumulator + delta stays below 2^32. -/
theorem refire_after_full_period (m : EventManager) (now0 i : Nat) (t : TimedTask)
    (nows : List Nat) (hwf : m.WF) (hsafe : m.Safe) (hslot : m._interval[i]? = some t)
    (halive : t.alive = true)
    (hfire : addUL t.current (subUL now0 m._previousMs) ≥ t.ms) :
    ∃ r0 mEnd rs, tick m now0 = .ok r0 ∧
      r0.fired.filter (fun f => f.1 == i) = [(i, t.evt)] ∧
      r0.mgr._interval[i]? = some { t with current := 0 } ∧
      ticks r0.mgr nows = .ok (mEnd, rs) ∧ rs.length = nows.length ∧
      ∀ (k : Nat) (r : TickResult), rs[k]? = some r →
        ((deltas now0 nows).take (k + 1)).sum < 2 ^ 32 →
        (((deltas now0 nows).take (k + 1)).sum < t.ms →
          r.fired.filter (fun f => f.1 == i) = []) ∧
        (((deltas now0 nows).take k).sum < t.ms →
          t.ms ≤ ((deltas now0 nows).take (k + 1)).sum →
          r.fired.filter (fun f => f.1 == i) = [(i, t.evt)] ∧
          r.mgr._interval[i]? = some { t with current := 0 }) := by
  have hslot0 : (tickSpec m now0).mgr._interval[i]? = some { t with current := 0 } := by
    rw [tickSpec_slot, hslot, Option.map_some', stepTask_of_alive _ t halive, if_pos hfire]
  have hfired0 : (tickSpec m now0).fired.filter (fun f => f.1 == i) = [(i, t.evt)] := by
    rw [tickSpec_fired_slot m now0 i t hslot, firesTask_of_alive _ t halive,
      if_pos (decide_eq_true hfire)]
  obtain ⟨mEnd, rs, hticks, hlen, hall⟩ :=
    ticks_until_fire (tickSpec m now0).mgr i { t with current := 0 } nows
      (tickSpec_wf m now0 hwf) (tickSpec_safe m now0 hsafe) hslot0 halive
  refine ⟨_, mEnd, rs, tick_eq m now0 hwf hsafe, hfired0, hslot0, hticks, hlen, ?_⟩
  intro k r hr hb
  have h := hall k r hr (by show 0 + _ < _; rw [Nat.zero_add]; exact hb)
  constructor
  · intro hlt
    exact h.1 (by show 0 + _ < _; rw [Nat.zero_add]; exact hlt)
  · intro hlt hge
    exact h.2 (by show 0 + _ < _; rw [Nat.zero_add]; exact hlt)
      (by show _ ≤ 0 + _; rw [Nat.zero_add]; exact hge)

/-- C12 at a concrete input: "blink" of period 100 in slot 0 with accumulator
60; the tick at 70 ms fires it (overshoot 30); then ticks at 120, 169 and
170 ms. -/
theorem refire_after_full_period_witness :
    ∃ r0 mEnd rs, tick { EventManager.fresh 0 with
                  _interval := TimedTask.new 100 (Event.ofLabel (some "blink"))
                                 :: List.replicate 4 TimedTask.empty,
                  _intervalPos := 1 } 70 = .ok r0 ∧
      r0.fired.filter (fun f => f.1 == 0) = [(0, Event.ofLabel (some "blink"))] ∧
      r0.mgr._interval[0]?
        = some { TimedTask.new 100 (Event.ofLabel (some "blink")) with current := 0 } ∧
      ticks r0.mgr [120, 169, 170] = .ok (mEnd, rs) ∧ rs.length = [120, 169, 170].length ∧
      ∀ (k : Nat) (r : TickResult), rs[k]? = some r →
        ((deltas 70 [120, 169, 170]).take (k + 1)).sum < 2 ^ 32 →
        (((deltas 70 [120, 169, 170]).take (k + 1)).sum < 100 →
          r.fired.filter (fun f => f.1 == 0) = []) ∧
        (((deltas 70 [120, 169, 170]).take k).sum < 100 →
          100 ≤ ((deltas 70 [120, 169, 170]).take (k + 1)).sum →
          r.fired.filter (fun f => f.1 == 0) = [(0, Event.ofLabel (some "blink"))] ∧
          r.mgr._interval[0]?
            = some { TimedTask.new 100 (Event.ofLabel (some "blink")) with current := 0 }) :=
  refire_after_full_period
    { EventManager.fresh 0 with
        _interval := TimedTask.new 100 (Event.ofLabel (some "blink"))
                       :: List.replicate 4 TimedTask.empty,
        _intervalPos := 1 } 70 0 (TimedTask.new 100 (Event.ofLabel (some "blink")))
    [120, 169, 170] ⟨rfl, rfl, rfl, rfl⟩ (by decide) rfl rfl (by decide)

/-- C13 (as amended): a task built by `TimedTask(P, evt)` is alive with
accumulator 60.  Once registered, on the ticks for which 60 plus the elapsed
time so far stays below 2^32: when `P >= 60` it is not triggered while the sum
of the elapsed times is below `P - 60` and is triggered on the first tick at
which the sum reaches `P - 60`; when `P <= 60` it is triggered on the very
first tick. -/
theorem seeded_task_fires_early (m : EventManager) (P : Nat) (evt : Event) (nows : List Nat)
    (hwf : m.WF) (hpos : m._intervalPos < 5) (hsafe : m.Safe)
    (hevt : TriggerSafe m._sub evt) :
    ∃ m1 mEnd rs, triggerInterval m (TimedTask.new P evt) = .ok m1 ∧
      m1._interval[m._intervalPos]?
        = some { ms := P, current := 60, evt := evt, alive := true } ∧
      ticks m1 nows = .ok (mEnd, rs) ∧ rs.length = nows.length ∧
      ∀ (k : Nat) (r : TickResult), rs[k]? = some r →
        60 + ((deltas m._previousMs nows).take (k + 1)).sum < 2 ^ 32 →
        (60 ≤ P →
          (((deltas m._previousMs nows).take (k + 1)).sum < P - 60 →
            r.fired.filter (fun f => f.1 == m._intervalPos) = []) ∧
          (((deltas m._previousMs nows).take k).sum < P - 60 →
            P - 60 ≤ ((deltas m._previousMs nows).take (k + 1)).sum →
            r.fired.filter (fun f => f.1 == m._intervalPos) = [(m._intervalPos, evt)])) ∧
        (P ≤ 60 → k = 0 →
          r.fired.filter (fun f => f.1 == m._intervalPos) = [(m._intervalPos, evt)]) := by
  obtain ⟨m1, hreg, hwf1, hsafe1, hslot1, hprev1, _⟩ :=
    triggerInterval_ok m (TimedTask.new P evt) hwf hpos hsafe hevt
  obtain ⟨mEnd, rs, hticks, hlen, hall⟩ :=
    ticks_until_fire m1 m._intervalPos (TimedTask.new P evt) nows hwf1 hsafe1 hslot1 rfl
  rw [hprev1] at hall
  refine ⟨m1, mEnd, rs, hreg, hslot1, hticks, hlen, ?_⟩
  intro k r hr hb
  have h := hall k r hr hb
  refine ⟨fun h60 => ⟨fun hlt => h.1 (by show 60 + _ < P; omega),
    fun hlt hge => (h.2 (by show 60 + _ < P; omega) (by show P ≤ 60 + _; omega)).1⟩, ?_⟩
  intro hP hk
  subst hk
  cases nows with
  | nil => simp at hlen; subst hlen; simp at hr
  | cons now rest =>
    simp only [deltas, List.take_succ_cons, List.take_zero, List.sum_cons, List.sum_nil,
      Nat.add_zero, Nat.zero_add] at hb
    obtain ⟨mEnd2, r2, rs2, hticks2, hfired2, _⟩ :=
      ticks_first_tick m1 m._intervalPos (TimedTask.new P evt) now rest hwf1 hsafe1 hslot1 rfl
        (by rw [hprev1]; exact hb) (by rw [hprev1]; show P ≤ 60 + _; omega)
    rw [hticks] at hticks2
    simp only [Except.ok.injEq, Prod.mk.injEq] at hticks2
    rw [hticks2.2] at hr
    simp only [List.getElem?_cons_zero, Option.some.injEq] at hr
    rw [← hr]
    exact hfired2

/-- C13 at a concrete input: period 100 on "blink" registered on a fresh
manager, ticks at 30, 40 and 80 ms. -/
theorem seeded_task_fires_early_witness :
    ∃ m1 mEnd rs, triggerInterval (EventManager.fresh 0)
          (TimedTask.new 100 (Event.ofLabel (some "blink"))) = .ok m1 ∧
      m1._interval[0]?
        = some { ms := 100, current := 60, evt := Event.ofLabel (some "blink"),
                 alive := true } ∧
      ticks m1 [30, 40, 80] = .ok (mEnd, rs) ∧ rs.length = [30, 40, 80].length ∧
      ∀ (k : Nat) (r : TickResult), rs[k]? = some r →
        60 + ((deltas 0 [30, 40, 80]).take (k + 1)).sum < 2 ^ 32 →
        (60 ≤ 100 →
          (((deltas 0 [30, 40, 80]).take (k + 1)).sum < 100 - 60 →
            r.fired.filter (fun f => f.1 == 0) = []) ∧
          (((deltas 0 [30, 40, 80]).take k).sum < 100 - 60 →
            100 - 60 ≤ ((deltas 0 [30, 40, 80]).take (k + 1)).sum →
            r.fired.filter (fun f => f.1 == 0) = [(0, Event.ofLabel (some "blink"))])) ∧
        (100 ≤ 60 → k = 0 →
          r.fired.filter (fun f => f.1 == 0) = [(0, Event.ofLabel (some "blink"))]) :=
  seeded_task_fires_early (EventManager.fresh 0) 100 (Event.ofLabel (some "blink"))
    [30, 40, 80] ⟨rfl, rfl, rfl, rfl⟩ (by decide) (by decide) (by decide)

/-- C13 fails as stated ("on the very first tick, whatever its delta"): a task
of period 50 registered on a fresh manager is not triggered by a first tick
with elapsed time 4294967236, because 60 + 4294967236 wraps to 0. -/
theorem seeded_task_first_tick_wraps :
    triggerInterval (EventManager.fresh 0) (TimedTask.new 50 (Event.ofLabel (some "e")))
        = .ok { EventManager.fresh 0 with
                  _interval := TimedTask.new 50 (Event.ofLabel (some "e"))
                                 :: List.replicate 4 TimedTask.empty,
                  _intervalPos := 1 } ∧
      tick { EventManager.fresh 0 with
                  _interval := TimedTask.new 50 (Event.ofLabel (some "e"))
                                 :: List.replicate 4 TimedTask.empty,
                  _intervalPos := 1 } 4294967236
        = .ok { mgr := { EventManager.fresh 0 with
                  _interval := { TimedTask.new 50 (Event.ofLabel (some "e")) with
                                   current := 0 } :: List.replicate 4 TimedTask.empty,
                  _intervalPos := 1,
                  _previousMs := 4294967236 }
                fired := []
                calls := [] } :=
  ⟨rfl, rfl⟩

/-- C14 (as amended): for an alive task and a tick whose elapsed time `d` is at
least the period, the task is triggered exactly once on that tick provided
accumulator + `d` does not exceed 2^32 - 1; and on every tick, whatever the
accumulator and `d`, it is triggered at most once. -/
theorem long_delta_fires_once (m : EventManager) (now i : Nat) (t : TimedTask)
    (hwf : m.WF) (hsafe : m.Safe) (hslot : m._interval[i]? = some t)
    (halive : t.alive = true) (hd : t.ms ≤ subUL now m._previousMs) :
    ∃ r, tick m now = .ok r ∧ (r.fired.filter (fun f => f.1 == i)).length ≤ 1 ∧
      (t.current + subUL now m._previousMs < 2 ^ 32 →
        r.fired.filter (fun f => f.1 == i) = [(i, t.evt)]) := by
  refine ⟨_, tick_eq m now hwf hsafe, ?_, ?_⟩
  · rw [tickSpec_fired_slot m now i t hslot]
    split <;> simp
  · intro hb
    have hge : addUL t.current (subUL now m._previousMs) ≥ t.ms := by
      rw [addUL_of_lt _ _ hb]; omega
    rw [tickSpec_fired_slot m now i t hslot, firesTask_of_alive _ t halive,
      if_pos (decide_eq_true hge)]

/-- C14 at a concrete input: "blink" of period 100 with accumulator 60 in slot
0, previous tick at 0, tick at 250 ms. -/
theorem long_delta_fires_once_witness :
    ∃ r, tick { EventManager.fresh 0 with
                  _interval := TimedTask.new 100 (Event.ofLabel (some "blink"))
                                 :: List.replicate 4 TimedTask.empty,
                  _intervalPos := 1 } 250 = .ok r ∧
      (r.fired.filter (fun f => f.1 == 0)).length ≤ 1 ∧
      (60 + subUL 250 0 < 2 ^ 32 →
        r.fired.filter (fun f => f.1 == 0) = [(0, Event.ofLabel (some "blink"))]) :=
  long_delta_fires_once
    { EventManager.fresh 0 with
        _interval := TimedTask.new 100 (Event.ofLabel (some "blink"))
                       :: List.replicate 4 TimedTask.empty,
        _intervalPos := 1 } 250 0 (TimedTask.new 100 (Event.ofLabel (some "blink")))
    ⟨rfl, rfl, rfl, rfl⟩ (by decide) rfl rfl (by decide)

/-- C14 fails as stated: a task of period 4294967295 registered on a fresh
manager (accumulator 60) and a tick with elapsed time 4294967295, which is at
least the period: the 32-bit sum is 59, below the period, and the task is not
triggered. -/
theorem long_delta_wraps_without_firing :
    triggerInterval (EventManager.fresh 0) (TimedTask.new 4294967295 (Event.ofLabel (some "e")))
        = .ok { EventManager.fresh 0 with
                  _interval := TimedTask.new 4294967295 (Event.ofLabel (some "e"))
                                 :: List.replicate 4 TimedTask.empty,
                  _intervalPos := 1 } ∧
      subUL 4294967295 0 = 4294967295 ∧
      tick { EventManager.fresh 0 with
                  _interval := TimedTask.new 4294967295 (Event.ofLabel (some "e"))
                                 :: List.replicate 4 TimedTask.empty,
                  _intervalPos := 1 } 4294967295
        = .ok { mgr := { EventManager.fresh 0 with
                  _interval := { TimedTask.new 4294967295 (Event.ofLabel (some "e")) with
                                   current := 59 } :: List.replicate 4 TimedTask.empty,
                  _intervalPos := 1,
                  _previousMs := 4294967295 }
                fired := []
                calls := [] } :=
  ⟨rfl, rfl, rfl⟩

/-- C16 (as amended): for an alive task and a tick, either the task is
triggered on that tick and its accumulator becomes 0, or it is not triggered
and, provided accumulator + delta does not exceed 2^32 - 1, its accumulator
after the tick is at least its accumulator before the tick. -/
theorem accumulator_resets_or_grows (m : EventManager) (now i : Nat) (t : TimedTask)
    (hwf : m.WF) (hsafe : m.Safe) (hslot : m._interval[i]? = some t)
    (halive : t.alive = true) :
    ∃ r t1, tick m now = .ok r ∧ r.mgr._interval[i]? = some t1 ∧
      ((r.fired.filter (fun f => f.1 == i) = [(i, t.evt)] ∧ t1.current = 0) ∨
       (r.fired.filter (fun f => f.1 == i) = [] ∧
         (t.current + subUL now m._previousMs < 2 ^ 32 → t.current ≤ t1.current))) := by
  refine ⟨_, stepTask (subUL now m._previousMs) t, tick_eq m now hwf hsafe, ?_, ?_⟩
  · rw [tickSpec_slot, hslot]; rfl
  · rw [tickSpec_fired_slot m now i t hslot, firesTask_of_alive _ t halive,
      stepTask_of_alive _ t halive]
    by_cases hge : addUL t.current (subUL now m._previousMs) ≥ t.ms
    · left
      rw [if_pos hge, if_pos (decide_eq_true hge)]
      exact ⟨rfl, rfl⟩
    · right
      rw [if_neg hge, if_neg (by simpa using hge)]
      refine ⟨rfl, fun hb => ?_⟩
      show t.current ≤ addUL t.current (subUL now m._previousMs)
      rw [addUL_of_lt _ _ hb]
      omega

/-- C16 at a concrete input: "blink" of period 100 with accumulator 60 in slot
0, previous tick at 0, tick at 10 ms. -/
theorem accumulator_resets_or_grows_witness :
    ∃ r t1, tick { EventManager.fresh 0 with
                  _interval := TimedTask.new 100 (Event.ofLabel (some "blink"))
                                 :: List.replicate 4 TimedTask.empty,
                  _intervalPos := 1 } 10 = .ok r ∧
      r.mgr._interval[0]? = some t1 ∧
      ((r.fired.filter (fun f => f.1 == 0) = [(0, Event.ofLabel (some "blink"))] ∧
          t1.current = 0) ∨
       (r.fired.filter (fun f => f.1 == 0) = [] ∧
         (60 + subUL 10 0 < 2 ^ 32 → 60 ≤ t1.current))) :=
  accumulator_resets_or_grows
    { EventManager.fresh 0 with
        _interval := TimedTask.new 100 (Event.ofLabel (some "blink"))
                       :: List.replicate 4 TimedTask.empty,
        _intervalPos := 1 } 10 0 (TimedTask.new 100 (Event.ofLabel (some "blink")))
    ⟨rfl, rfl, rfl, rfl⟩ (by decide) rfl rfl

/-- C16 fails as stated: a task of period 1000 registered on a fresh manager has
accumulator 60; a tick with elapsed time 4294967295 does not trigger it (the
32-bit sum is 59, below 1000) and leaves the accumulator at 59, below 60. -/
theorem accumulator_decreases_without_firing :
    triggerInterval (EventManager.fresh 0) (TimedTask.new 1000 (Event.ofLabel (some "e")))
        = .ok { EventManager.fresh 0 with
                  _interval := TimedTask.new 1000 (Event.ofLabel (some "e"))
                                 :: List.replicate 4 TimedTask.empty,
                  _intervalPos := 1 } ∧
      tick { EventManager.fresh 0 with
                  _interval := TimedTask.new 1000 (Event.ofLabel (some "e"))
                                 :: List.replicate 4 TimedTask.empty,
                  _intervalPos := 1 } 4294967295
        = .ok { mgr := { EventManager.fresh 0 with
                  _interval := { TimedTask.new 1000 (Event.ofLabel (some "e")) with
                                   current := 59 } :: List.replicate 4 TimedTask.empty,
                  _intervalPos := 1,
                  _previousMs := 4294967295 }
                fired := []
                calls := [] } :=
  ⟨rfl, rfl⟩

/-- C18: after any tick, from any prior state and with any elapsed time (the
32-bit sum may wrap), every alive task in a slot has its accumulator strictly
below its period or equal to 0. -/
theorem accumulator_below_period_after_tick (m : EventManager) (now : Nat)
    (hwf : m.WF) (hsafe : m.Safe) :
    ∃ r, tick m now = .ok r ∧
      ∀ t1 ∈ r.mgr._interval, t1.alive = true → t1.current < t1.ms ∨ t1.current = 0 := by
  refine ⟨_, tick_eq m now hwf hsafe, ?_⟩
  intro t1 ht1 halive1
  obtain ⟨t, _, rfl⟩ := List.mem_map.mp ht1
  rw [stepTask_alive] at halive1
  rw [stepTask_of_alive _ t halive1]
  by_cases hge : addUL t.current (subUL now m._previousMs) ≥ t.ms
  · rw [if_pos hge]; exact Or.inr rfl
  · rw [if_neg hge]; exact Or.inl (Nat.not_le.mp hge)

/-- C18 at a concrete input: a task of period 4294967295 with accumulator 60 and
a tick whose elapsed time 4294967246 makes the sum wrap. -/
theorem accumulator_below_period_after_tick_witness :
    ∃ r, tick { EventManager.fresh 0 with
                  _interval := TimedTask.new 4294967295 (Event.ofLabel (some "e"))
                                 :: List.replicate 4 TimedTask.empty,
                  _intervalPos := 1 } 4294967246 = .ok r ∧
      ∀ t1 ∈ r.mgr._interval, t1.alive = true → t1.current < t1.ms ∨ t1.current = 0 :=
  accumulator_below_period_after_tick
    { EventManager.fresh 0 with
        _interval := TimedTask.new 4294967295 (Event.ofLabel (some "e"))
                       :: List.replicate 4 TimedTask.empty,
        _intervalPos := 1 } 4294967246 ⟨rfl, rfl, rfl, rfl⟩ (by decide)

/-- C15: `tick` steps every slot by one and the same elapsed time, the
difference modulo 2^32 between the clock reading and the reading the previous
tick stored, and stores the reading as the new baseline.  Hence for two
consecutive ticks at true times `T1 <= T2` less than 2^32 ms apart, whose clock
readings are the times modulo 2^32, the elapsed time of the second tick is
`T2 - T1`, also when the counter wraps in between. -/
theorem tick_delta_is_elapsed_time (m : EventManager) (hwf : m.WF) (hsafe : m.Safe) :
    (∀ now : Nat, ∃ r, tick m now = .ok r ∧ r.mgr._previousMs = now ∧
      subUL now m._previousMs < 2 ^ 32 ∧
      (subUL now m._previousMs + m._previousMs) % 2 ^ 32 = now % 2 ^ 32 ∧
      r.mgr._interval = m._interval.map (stepTask (subUL now m._previousMs)) ∧
      r.fired = firedFrom (subUL now m._previousMs) 0 m._interval) ∧
    (∀ T1 T2 : Nat, T1 ≤ T2 → T2 - T1 < 2 ^ 32 →
      ∃ r1 r2, tick m (T1 % 2 ^ 32) = .ok r1 ∧ tick r1.mgr (T2 % 2 ^ 32) = .ok r2 ∧
        subUL (T2 % 2 ^ 32) r1.mgr._previousMs = T2 - T1 ∧
        r2.mgr._previousMs = T2 % 2 ^ 32 ∧
        r2.mgr._interval = r1.mgr._interval.map (stepTask (T2 - T1)) ∧
        r2.fired = firedFrom (T2 - T1) 0 r1.mgr._interval) := by
  constructor
  · intro now
    exact ⟨_, tick_eq m now hwf hsafe, rfl, subUL_lt _ _, subUL_add_mod _ _, rfl, rfl⟩
  · intro T1 T2 hle hlt
    have hd : subUL (T2 % 2 ^ 32) (tickSpec m (T1 % 2 ^ 32)).mgr._previousMs = T2 - T1 :=
      subUL_of_elapsed T1 T2 hle hlt
    refine ⟨_, _, tick_eq m _ hwf hsafe,
      tick_eq _ _ (tickSpec_wf m _ hwf) (tickSpec_safe m _ hsafe), hd, rfl, ?_, ?_⟩
    · show List.map (stepTask (subUL _ _)) _ = _
      rw [hd]
    · show firedFrom (subUL _ _) 0 _ = _
      rw [hd]

/-- C15 at a concrete input: "blink" of period 100 in slot 0; the true times
4294967290 and 4294967300 lie on both sides of the wrap of the counter (the
second reading is 4). -/
theorem tick_delta_is_elapsed_time_witness :
    ∃ r1 r2, tick { EventManager.fresh 0 with
                  _interval := TimedTask.new 100 (Event.ofLabel (some "blink"))
                                 :: List.replicate 4 TimedTask.empty,
                  _intervalPos := 1 } (4294967290 % 2 ^ 32) = .ok r1 ∧
      tick r1.mgr (4294967300 % 2 ^ 32) = .ok r2 ∧
      subUL (4294967300 % 2 ^ 32) r1.mgr._previousMs = 4294967300 - 4294967290 ∧
      r2.mgr._previousMs = 4294967300 % 2 ^ 32 ∧
      r2.mgr._interval = r1.mgr._interval.map (stepTask (4294967300 - 4294967290)) ∧
      r2.fired = firedFrom (4294967300 - 4294967290) 0 r1.mgr._interval :=
  (tick_delta_is_elapsed_time
    { EventManager.fresh 0 with
        _interval := TimedTask.new 100 (Event.ofLabel (some "blink"))
                       :: List.replicate 4 TimedTask.empty,
        _intervalPos := 1 } ⟨rfl, rfl, rfl, rfl⟩ (by decide)).2
    4294967290 4294967300 (by decide) (by decide)

/-- C17: within one tick the triggers are made in slot order.  The triggers of
a tick are those of the alive slots whose 32-bit sum reaches the period, each
with the event of its slot, listed by strictly increasing slot index; and the
invocation trace of the tick is the concatenation, in that order, of the traces
`trigger` yields for these events. -/
theorem tick_triggers_in_slot_order (m : EventManager) (now : Nat)
    (hwf : m.WF) (hsafe : m.Safe) :
    ∃ r, tick m now = .ok r ∧
      r.fired.Pairwise (fun a b => a.1 < b.1) ∧
      (∀ (j : Nat) (e : Event), (j, e) ∈ r.fired ↔
        ∃ t, m._interval[j]? = some t ∧ t.alive = true ∧
          addUL t.current (subUL now m._previousMs) ≥ t.ms ∧ e = t.evt) ∧
      (∀ f ∈ r.fired, trigger m f.2 = .ok (m, matchCalls f.2 m._sub)) ∧
      r.calls = r.fired.flatMap (fun f => matchCalls f.2 m._sub) := by
  refine ⟨_, tick_eq m now hwf hsafe, firedFrom_sorted _ _ _,
    fun j e => tickSpec_fired_mem m now j e, ?_, rfl⟩
  intro f hf
  obtain ⟨t, hget, halive, _, he⟩ := (tickSpec_fired_mem m now f.1 f.2).mp hf
  have hsz : m._subSize = m._sub.length := by rw [hwf.subSize_eq, hwf.sub_length]
  rw [he]
  exact trigger_eq m t.evt hsz (hsafe t (List.getElem?_mem hget) halive)

/-- C17 at a concrete input: the example state with "a" in slot 0 and "b" in
slot 1; the tick at 50 ms fires both and invokes handler 1 (for slot 0) before
handler 2 (for slot 1), although handler 2 subscribed first. -/
theorem tick_triggers_in_slot_order_witness :
    (∃ r, tick twoTaskManager 50 = .ok r ∧
      r.fired.Pairwise (fun a b => a.1 < b.1) ∧
      (∀ (j : Nat) (e : Event), (j, e) ∈ r.fired ↔
        ∃ t, twoTaskManager._interval[j]? = some t ∧ t.alive = true ∧
          addUL t.current (subUL 50 twoTaskManager._previousMs) ≥ t.ms ∧ e = t.evt) ∧
      (∀ f ∈ r.fired,
        trigger twoTaskManager f.2 = .ok (twoTaskManager, matchCalls f.2 twoTaskManager._sub)) ∧
      r.calls = r.fired.flatMap (fun f => matchCalls f.2 twoTaskManager._sub)) ∧
    (tick twoTaskManager 50).map (fun r => (r.fired, r.calls))
      = .ok ([(0, Event.ofLabel (some "a")), (1, Event.ofLabel (some "b"))],
             [(1, Event.ofLabel (some "a")), (2, Event.ofLabel (some "b"))]) :=
  ⟨tick_triggers_in_slot_order twoTaskManager 50 ⟨rfl, rfl, rfl, rfl⟩ (by decide), rfl⟩

/-- C19: on a manager all of whose alive tasks have a positive period, a tick
at the clock reading of the tick just made (elapsed time 0) makes no trigger
and no handler invocation and leaves the manager, every accumulator included,
exactly as the first tick left it. -/
theorem tick_twice_same_reading (m : EventManager) (now : Nat)
    (hwf : m.WF) (hsafe : m.Safe) (hpos : ∀ t ∈ m._interval, t.alive = true → 0 < t.ms) :
    ∃ r1, tick m now = .ok r1 ∧
      subUL now r1.mgr._previousMs = 0 ∧
      tick r1.mgr now = .ok { mgr := r1.mgr, fired := [], calls := [] } := by
  refine ⟨_, tick_eq m now hwf hsafe, subUL_self now, ?_⟩
  rw [tick_eq _ now (tickSpec_wf m now hwf) (tickSpec_safe m now hsafe)]
  have hd : subUL now (tickSpec m now).mgr._previousMs = 0 := subUL_self now
  have hfix : ∀ t1 ∈ (tickSpec m now).mgr._interval,
      stepTask 0 t1 = t1 ∧ firesTask 0 t1 = false := by
    intro t1 ht1
    obtain ⟨t, ht, rfl⟩ := List.mem_map.mp ht1
    exact stepTask_zero_after_step _ t (hpos t ht)
  have hmap := map_stepTask_of_fixed 0 (tickSpec m now).mgr._interval fun t1 h => (hfix t1 h).1
  have hfired := firedFrom_of_none_fires 0 (tickSpec m now).mgr._interval 0
    fun t1 h => (hfix t1 h).2
  have hprev : (tickSpec m now).mgr._previousMs = now := rfl
  unfold tickSpec at hmap hfired hd hprev ⊢
  simp only [hd, hmap, hfired, List.flatMap_nil]

/-- C19 at a concrete input: "blink" of period 100 with accumulator 60 in slot
0 and two ticks at 40 ms: the first fires, the second changes nothing. -/
theorem tick_twice_same_reading_witness :
    ∃ r1, tick { EventManager.fresh 0 with
                  _interval := TimedTask.new 100 (Event.ofLabel (some "blink"))
                                 :: List.replicate 4 TimedTask.empty,
                  _intervalPos := 1 } 40 = .ok r1 ∧
      subUL 40 r1.mgr._previousMs = 0 ∧
      tick r1.mgr 40 = .ok { mgr := r1.mgr, fired := [], calls := [] } :=
  tick_twice_same_reading
    { EventManager.fresh 0 with
        _interval := TimedTask.new 100 (Event.ofLabel (some "blink"))
                       :: List.replicate 4 TimedTask.empty,
        _intervalPos := 1 } 40 ⟨rfl, rfl, rfl, rfl⟩ (by decide) (by decide)

end ArduinoEvent
